import Mathlib

/-!
Shallow embedding of the rule/node aggregation pipeline of the
`clash_subscription_tool` repository, together with theorems checking the
natural-language specification against the code.

Source files embedded here:
  * `src/build/download.rs` — multi-threaded ranged download, content cache
  * `src/build/sort.rs`     — rule sorting and adjacent dedup
  * `src/build/mathrule.rs` — rule-line normalization
  * `src/build/rules.rs`    — rule aggregation, tagging, final-rule rewrite
  * `src/utils/paginate.rs` — node dedup, pagination, name-collision renaming

Strings are modelled with Lean `String`/`List Char`; Rust byte positions in
the embedded code always fall on ASCII pattern boundaries, where char and
byte indices agree.  Machine integers are modelled as `Nat` (all arithmetic
in the embedded code stays far below the relevant `2^w` bounds, except where
noted).  Filesystem state is passed explicitly.  Cryptographic digests
(blake3) are modelled by deterministic stand-in functions, documented at
their definitions; no claim below depends on actual digest values, only on
determinism of the digest.
-/

/-! ### Generic string helpers

The Rust code uses `str::contains`, `str::find`, `str::splitn`,
`str::split`, `str::strip_suffix`, `str::starts_with` and slicing.  They are
modelled on `List Char` and lifted to `String`. -/

/-- Index of the first occurrence of `needle` in `hay`, if any
(models `str::find` for ASCII needles). -/
def subFind (hay needle : List Char) : Option Nat :=
  match hay with
  | [] => if needle = [] then some 0 else none
  | _ :: t => if needle.isPrefixOf hay then some 0 else (subFind t needle).map (· + 1)

/-- Substring containment test (models `str::contains`). -/
def strContains (hay needle : String) : Bool :=
  (subFind hay.toList needle.toList).isSome

/-- Models `str::find`, returning a character index. -/
def strFind (hay needle : String) : Option Nat :=
  subFind hay.toList needle.toList

/-- Models `str::starts_with`. -/
def strStarts (hay needle : String) : Bool :=
  needle.toList.isPrefixOf hay.toList

/-- Models `str::strip_suffix`: removes a final occurrence of `suf`,
if present. -/
def stripSuffix (s suf : String) : Option String :=
  if suf.toList.isSuffixOf s.toList then
    some (String.mk (s.toList.take (s.toList.length - suf.toList.length)))
  else none

/-- Splits a character list on a separator character
(models `str::split(c)`; like Rust, always returns at least one piece). -/
def splitOnChar (c : Char) : List Char → List (List Char)
  | [] => [[]]
  | x :: xs =>
    if x = c then
      [] :: splitOnChar c xs
    else
      match splitOnChar c xs with
      | [] => [[x]]
      | p :: ps => (x :: p) :: ps

/-- String version of `splitOnChar`. -/
def strSplit (s : String) (c : Char) : List String :=
  (splitOnChar c s.toList).map String.mk

/-- First `n` characters of a string, as in slicing `s[..n]`
(all slice positions used in the embedded code are ASCII boundaries). -/
def strTake (s : String) (n : Nat) : String :=
  String.mk (s.toList.take n)

/-- Characters of a string from position `n` on, as in slicing `s[n..]`. -/
def strDrop (s : String) (n : Nat) : String :=
  String.mk (s.toList.drop n)

/-- Replaces the first occurrence of `pat` by `rep`
(models `str::replacen(pat, rep, 1)`). -/
def replaceFirst (s pat rep : String) : String :=
  match strFind s pat with
  | some i => strTake s i ++ rep ++ strDrop s (i + pat.length)
  | none => s

/-! ### ContentCache — `save_net_file` (src/build/download.rs, lines 80-100)

The filesystem is modelled as the optional byte content stored at the one
path the call touches (`none` = no file at the path).  Bytes are `Nat`
(values < 256 in reality; nothing below depends on the bound). -/

/-- Deterministic stand-in for `blake3::hash`: the digest is a fixed pure
function of the input bytes, modelled as the identity on the byte list.
Equal inputs give equal digests, which is the only property used. -/
def blake3_hash (data : List Nat) : List Nat := data

/-- Result of `save_net_file`: the returned status string, and the content
at the path after the call. -/
structure SaveResult where
  status : String
  fs : Option (List Nat)
  deriving DecidableEq, Repr

/-- Embedding of `save_net_file` (src/build/download.rs).  `fs` is the file
content currently at `file_path`, `none` when the path does not exist. -/
def save_net_file (net_content : List Nat) (file_path : String)
    (fs : Option (List Nat)) : SaveResult :=
  if net_content ≠ [] then
    match fs with
    | some local_content =>
      if blake3_hash local_content = blake3_hash net_content then
        ⟨file_path ++ " 文件与网络文件一致，无需保存！", fs⟩
      else
        ⟨file_path ++ " 文件与网络文件不一致，已保存本地！", some net_content⟩
    | none => ⟨file_path ++ " 文件不存在，已保存本地！", some net_content⟩
  else
    ⟨"要写入的数据为空！", fs⟩

/-! ### RangedDownloader — byte-range partition (src/build/download.rs, lines 33-66) -/

/-- The inclusive byte ranges `(start, end)` issued by
`download_multi_threaded`: range `i` spans
`[i*chunk_size, (i+1)*chunk_size - 1]`, the last range ends at
`total_size - 1`, with `chunk_size = total_size / thread`. -/
def chunk_ranges (total_size thread : Nat) : List (Nat × Nat) :=
  let chunk_size := total_size / thread
  (List.range thread).map (fun i =>
    (i * chunk_size, if i = thread - 1 then total_size - 1 else (i + 1) * chunk_size - 1))

/-- The bytes a range response contributes: the inclusive slice
`bytes[start..=end]` of the remote resource. -/
def sliceRange (bytes : List Nat) (r : Nat × Nat) : List Nat :=
  (bytes.drop r.1).take (r.2 + 1 - r.1)

/-! ### RuleSorter — `sort_rules` (src/build/sort.rs)

`ip_to_u128` parses the address string with Rust `IpAddr::from_str` and
yields the 32-bit value of an IPv4 address or the 128-bit value of an IPv6
address.  Both parsers are embedded below. -/

/-- Decimal digit test. -/
def isDigitChar (c : Char) : Bool := decide ('0' ≤ c ∧ c ≤ '9')

/-- Numeric value of a decimal digit list (most significant first). -/
def digitsVal (l : List Char) : Nat :=
  l.foldl (fun acc c => acc * 10 + (c.toNat - '0'.toNat)) 0

/-- Parses one IPv4 octet as Rust `Ipv4Addr::from_str` does: 1-3 decimal
digits, no leading zero (except "0" itself), value at most 255. -/
def parseOctet (l : List Char) : Option Nat :=
  if l ≠ [] ∧ l.length ≤ 3 ∧ l.all isDigitChar ∧ (l.head? = some '0' → l = ['0']) then
    let v := digitsVal l
    if v ≤ 255 then some v else none
  else none

/-- Rust `Ipv4Addr::from_str`, returning the 32-bit numeric value. -/
def parseIPv4 (s : List Char) : Option Nat :=
  match (splitOnChar '.' s).map parseOctet with
  | [some a, some b, some c, some d] => some (((a * 256 + b) * 256 + c) * 256 + d)
  | _ => none

/-- Hexadecimal digit test. -/
def isHexChar (c : Char) : Bool :=
  decide (('0' ≤ c ∧ c ≤ '9') ∨ ('a' ≤ c ∧ c ≤ 'f') ∨ ('A' ≤ c ∧ c ≤ 'F'))

/-- Numeric value of a hex digit. -/
def hexVal (c : Char) : Nat :=
  if '0' ≤ c ∧ c ≤ '9' then c.toNat - '0'.toNat
  else if 'a' ≤ c ∧ c ≤ 'f' then c.toNat - 'a'.toNat + 10
  else c.toNat - 'A'.toNat + 10

/-- Parses one 16-bit IPv6 group: 1-4 hex digits (leading zeros allowed). -/
def parseGroup16 (l : List Char) : Option Nat :=
  if l ≠ [] ∧ l.length ≤ 4 ∧ l.all isHexChar then
    some (l.foldl (fun acc c => acc * 16 + hexVal c) 0)
  else none

/-- Expands a list of colon-separated pieces into 16-bit group values; the
last piece may be an embedded dotted-quad IPv4 address, contributing two
groups, as Rust's IPv6 parser allows. -/
def parseGroups (pieces : List (List Char)) : Option (List Nat) :=
  match pieces with
  | [] => some []
  | [last] =>
    match parseGroup16 last with
    | some g => some [g]
    | none =>
      match parseIPv4 last with
      | some v => some [v / 65536, v % 65536]
      | none => none
  | piece :: rest =>
    match parseGroup16 piece, parseGroups rest with
    | some g, some gs => some (g :: gs)
    | _, _ => none

/-- Splits a character list at the first occurrence of `"::"`, returning
the parts before and after it, or `none` if `"::"` does not occur. -/
def splitDoubleColon (s : List Char) : Option (List Char × List Char) :=
  (subFind s [':', ':']).map fun i => (s.take i, s.drop (i + 2))

/-- Combines the 16-bit groups of an IPv6 address into its 128-bit value. -/
def groupsToVal (gs : List Nat) : Nat :=
  gs.foldl (fun acc g => acc * 65536 + g) 0

/-- Like `parseGroups` but with no embedded IPv4 allowed: used for the
pieces before a `"::"`, where Rust's parser only accepts plain hex groups. -/
def parseGroupsHex (pieces : List (List Char)) : Option (List Nat) :=
  match pieces with
  | [] => some []
  | piece :: rest =>
    match parseGroup16 piece, parseGroupsHex rest with
    | some g, some gs => some (g :: gs)
    | _, _ => none

/-- Rust `Ipv6Addr::from_str`, returning the 128-bit numeric value.
Grammar: either eight colon-separated groups (an embedded trailing IPv4
address counting as two), or one `"::"` with at most seven groups in total
around it, the elision filling with zero groups. -/
def parseIPv6 (s : List Char) : Option Nat :=
  match splitDoubleColon s with
  | none =>
    match parseGroups (splitOnChar ':' s) with
    | some gs => if gs.length = 8 then some (groupsToVal gs) else none
    | none => none
  | some (l, r) =>
    if (subFind r [':', ':']).isSome then none
    else
      let ls := if l = [] then some [] else parseGroupsHex (splitOnChar ':' l)
      let rs := if r = [] then some [] else parseGroups (splitOnChar ':' r)
      match ls, rs with
      | some lg, some rg =>
        if lg.length + rg.length ≤ 7 then
          some (groupsToVal (lg ++ List.replicate (8 - lg.length - rg.length) 0 ++ rg))
        else none
      | _, _ => none

/-- Embedding of `ip_to_u128` (src/build/sort.rs): Rust
`IpAddr::from_str` tried as IPv4 then IPv6, widened to one numeric key. -/
def ip_to_u128 (ip_str : String) : Option Nat :=
  match parseIPv4 ip_str.toList with
  | some v => some v
  | none => parseIPv6 ip_str.toList

/-- Lexicographic character-list comparison; models Rust `str::cmp`
(byte-wise on UTF-8, which agrees with code-point order). -/
def cmpChars : List Char → List Char → Ordering
  | [], [] => .eq
  | [], _ :: _ => .lt
  | _ :: _, [] => .gt
  | a :: as, b :: bs => if a < b then .lt else if b < a then .gt else cmpChars as bs

/-- String comparison, models Rust `String::cmp`. -/
def cmpStr (a b : String) : Ordering := cmpChars a.toList b.toList

/-- Models Rust `Option<u128>::cmp`: `None` sorts before `Some`. -/
def cmpOptNat : Option Nat → Option Nat → Ordering
  | none, none => .eq
  | none, some _ => .lt
  | some _, none => .gt
  | some a, some b => if a < b then .lt else if b < a then .gt else .eq

/-- The per-line sort tuple built by `sort_rules`
(`(type_part, ip_sort_key, key_part, line)`). -/
structure RuleTuple where
  ty : String
  ip : Option Nat
  key : String
  line : String
  deriving DecidableEq, Repr

/-- Tuple extraction in `sort_rules`: split on the first two commas; the
numeric IP key is computed only when the type field is `"IP-CIDR"`, from
the part of the target before `'/'`. -/
def toTuple (line : String) : RuleTuple :=
  let parts := strSplit line ','
  let type_part := parts.getD 0 ""
  let key_part := parts.getD 1 ""
  let ip_sort_key :=
    if type_part = "IP-CIDR" then
      ip_to_u128 ((strSplit key_part '/').getD 0 "")
    else none
  ⟨type_part, ip_sort_key, key_part, line⟩

/-- The comparator of `sort_rules`: primary key the type string; for
`"IP-CIDR"` rows the numeric IP option, otherwise the target string. -/
def ruleCmp (a b : RuleTuple) : Ordering :=
  match cmpStr a.ty b.ty with
  | .eq => if a.ty = "IP-CIDR" then cmpOptNat a.ip b.ip else cmpStr a.key b.key
  | o => o

/-- The `at most` relation induced by `ruleCmp`; `sort_rules` orders by it. -/
def ruleLe (a b : RuleTuple) : Prop := ruleCmp a b ≠ .gt

instance : DecidableRel ruleLe := fun a b => by
  unfold ruleLe; infer_instance

/-- Models `Vec::dedup`: removes adjacent equal elements. -/
def dedupAdj : List String → List String
  | [] => []
  | x :: xs =>
    match xs with
    | [] => [x]
    | y :: _ => if x = y then dedupAdj xs else x :: dedupAdj xs

/-- Embedding of `sort_rules` (src/build/sort.rs): build tuples, sort by
`ruleCmp`, project the lines back and drop adjacent duplicates.  The Rust
sort is an unstable comparator sort; a stable insertion sort is one of its
admissible outcomes and is used as the model. -/
def sort_rules (lines : List String) : List String :=
  let tuples := lines.map toTuple
  let sorted := List.insertionSort ruleLe tuples
  dedupAdj (sorted.map RuleTuple.line)

/-- The type field of a canonical rule line (text before the first comma). -/
def typeOf (line : String) : String := (strSplit line ',').getD 0 ""

/-- The target field of a canonical rule line (between first and second comma). -/
def keyOf (line : String) : String := (strSplit line ',').getD 1 ""

/-! ### RuleNormalizer — patterns, constants, `extraction_rules`
(src/build/patterns.rs, src/build/mathrule.rs)

The regular expressions are embedded as decidable recognizers over
character lists.  `\s` is modelled as the ASCII whitespace class; the rule
lines the program feeds through these patterns are ASCII. -/

/-- ASCII whitespace, the `\s` class as it applies to the embedded input. -/
def isSpaceChar (c : Char) : Bool :=
  decide (c = ' ' ∨ c = '\t' ∨ c = '\n' ∨ c = '\r' ∨ c = '\x0b' ∨ c = '\x0c')

/-- The body language of the quoted alternative of `RE_YAML_RULES`:
`(?:[^'\"]|\\'|\\\")*` — every unit is a non-quote character or a
backslash-escaped quote. -/
def isQuotedBody : List Char → Bool
  | [] => true
  | '\\' :: rest =>
    isQuotedBody rest ||
      (match rest with
       | q :: rest' => (decide (q = '\'') || decide (q = '"')) && isQuotedBody rest'
       | [] => false)
  | c :: rest => if c = '\'' ∨ c = '"' then false else isQuotedBody rest

/-- Embedding of `RE_YAML_RULES`
(`^\s*- (?:(['\"])((?:[^'\"]|\\'|\\\")*)\1|([^\s'\"]+))$`): returns the
extracted value — the quoted content (capture 2) when the quoted
alternative matches, else the bare value (capture 3) — or `none` when the
line is not a YAML list item.  The closing quote is forced to be the last
character by the back-reference and the `$` anchor. -/
def yamlRulesExtract (line : String) : Option String :=
  let cs := line.toList.dropWhile isSpaceChar
  match cs with
  | '-' :: ' ' :: rest =>
    match rest with
    | [] => none
    | c :: _ =>
      if c = '\'' ∨ c = '"' then
        -- quoted alternative
        if rest.length ≥ 2 ∧ rest.getLast? = some c ∧
            isQuotedBody (rest.drop 1 |>.dropLast) then
          some (String.mk (rest.drop 1 |>.dropLast))
        else none
      else
        -- bare alternative: one or more characters outside `\s`, `'`, `"`
        if rest.all (fun d => ¬ (isSpaceChar d ∨ d = '\'' ∨ d = '"')) then
          some (String.mk rest)
        else none
  | _ => none

/-- Alphanumeric-or-hyphen, the label character class of `RE_YAML_DOMAIN`. -/
def isLabelChar (c : Char) : Bool :=
  decide (('A' ≤ c ∧ c ≤ 'Z') ∨ ('a' ≤ c ∧ c ≤ 'z') ∨ ('0' ≤ c ∧ c ≤ '9') ∨ c = '-')

/-- Letter test for the final domain label. -/
def isAlphaChar (c : Char) : Bool :=
  decide (('A' ≤ c ∧ c ≤ 'Z') ∨ ('a' ≤ c ∧ c ≤ 'z'))

/-- A non-final domain label: 1-63 label characters, no leading or trailing
hyphen (the `(?!-)` and `(?<!-)` assertions). -/
def validLabel (l : List Char) : Bool :=
  decide (l ≠ []) && decide (l.length ≤ 63) && l.all isLabelChar &&
    decide (l.head? ≠ some '-') && decide (l.getLast? ≠ some '-')

/-- Embedding of `RE_YAML_DOMAIN`
(`^(?:(?!-)[A-Za-z0-9-]{1,63}(?<!-)\.)+[A-Za-z]{2,6}$`).  Labels cannot
contain `.`, so the decomposition at the dots is unique and the regex
language is: at least one valid label, each followed by a dot, then a final
label of 2-6 letters. -/
def domainMatch (s : List Char) : Bool :=
  let parts := splitOnChar '.' s
  decide (parts.length ≥ 2) && parts.dropLast.all validLabel &&
    (match parts.getLast? with
     | some last => decide (2 ≤ last.length ∧ last.length ≤ 6) && last.all isAlphaChar
     | none => false)

/-- A canonical decimal IPv4 octet per the `ipv4_cidr` regex of
`get_cidr_type`: `25[0-5]|2[0-4]\d|1\d\d|[1-9]?\d`. -/
def canonicalOctet : List Char → Bool
  | [a] => isDigitChar a
  | [a, b] => decide ('1' ≤ a ∧ a ≤ '9') && isDigitChar b
  | [a, b, c] =>
    (decide (a = '1') && isDigitChar b && isDigitChar c) ||
    (decide (a = '2') && decide ('0' ≤ b ∧ b ≤ '4') && isDigitChar c) ||
    (decide (a = '2') && decide (b = '5') && decide ('0' ≤ c ∧ c ≤ '5'))
  | _ => false

/-- The IPv4 prefix-length language `3[0-2]|[12]?\d` (0-32). -/
def prefix32 : List Char → Bool
  | [a] => isDigitChar a
  | [a, b] =>
    (decide (a = '1' ∨ a = '2') && isDigitChar b) ||
    (decide (a = '3') && decide ('0' ≤ b ∧ b ≤ '2'))
  | _ => false

/-- The IPv6 prefix-length language `12[0-8]|1[01][0-9]|[1-9]?[0-9]`
(0-128). -/
def prefix128 : List Char → Bool
  | [a] => isDigitChar a
  | [a, b] => decide ('1' ≤ a ∧ a ≤ '9') && isDigitChar b
  | [a, b, c] =>
    (decide (a = '1') && decide (b = '0' ∨ b = '1') && isDigitChar c) ||
    (decide (a = '1') && decide (b = '2') && decide ('0' ≤ c ∧ c ≤ '8'))
  | _ => false

/-- A 1-4 hex-digit IPv6 group, `[0-9A-Fa-f]{1,4}`. -/
def isHexGroup (l : List Char) : Bool :=
  decide (l ≠ []) && decide (l.length ≤ 4) && l.all isHexChar

/-- The address language of the `ipv6_cidr` regex of `get_cidr_type`,
characterized over the colon-split components: the ten alternation branches
are exactly (a) eight hex groups; (b) `::` alone; (c) leading `::` with 1-7
hex groups; (d) trailing `::` with 1-7 hex groups; (e) one interior `::`
with `n` groups before and `m` after, `n, m ≥ 1`, `n + m ≤ 7`. -/
def ipv6AddrMatch (addr : List Char) : Bool :=
  let comps := splitOnChar ':' addr
  let k := comps.length
  if comps.all (fun c => c ≠ []) then
    decide (k = 8) && comps.all isHexGroup
  else if comps = [[], [], []] then true
  else if comps.take 2 = [[], []] then
    let rest := comps.drop 2
    rest.all (fun c => c ≠ []) && rest.all isHexGroup &&
      decide (1 ≤ rest.length ∧ rest.length ≤ 7)
  else if comps.drop (k - 2) = [[], []] then
    let hs := comps.take (k - 2)
    hs.all (fun c => c ≠ []) && hs.all isHexGroup &&
      decide (1 ≤ hs.length ∧ hs.length ≤ 7)
  else
    let p := comps.findIdx (fun c => c = [])
    decide (comps.countP (fun c => c = []) = 1) &&
      decide (1 ≤ p ∧ p + 2 ≤ k) &&
      (comps.take p).all isHexGroup && (comps.drop (p + 1)).all isHexGroup &&
      decide (k ≤ 8)

/-- The IPv4-CIDR language of `get_cidr_type`: four canonical octets,
`/`, prefix 0-32. -/
def ipv4CidrMatch (s : List Char) : Bool :=
  match splitOnChar '/' s with
  | [addr, pre] =>
    (match splitOnChar '.' addr with
     | [a, b, c, d] => canonicalOctet a && canonicalOctet b && canonicalOctet c && canonicalOctet d
     | _ => false) && prefix32 pre
  | _ => false

/-- The IPv6-CIDR language of `get_cidr_type`: `ipv6AddrMatch` address,
`/`, prefix 0-128. -/
def ipv6CidrMatch (s : List Char) : Bool :=
  match splitOnChar '/' s with
  | [addr, pre] => ipv6AddrMatch addr && prefix128 pre
  | _ => false

/-- The `CidrType` enum of src/build/mathrule.rs. -/
inductive CidrType where
  | V4
  | V6
  deriving DecidableEq, Repr

/-- `CidrType::as_str`. -/
def CidrType.as_str : CidrType → String
  | .V4 => "IP-CIDR"
  | .V6 => "IP-CIDR6"

/-- Embedding of `get_cidr_type` (src/build/mathrule.rs): the IPv4 pattern
is tried first, then the IPv6 pattern. -/
def get_cidr_type (s : String) : Option CidrType :=
  if ipv4CidrMatch s.toList then some CidrType.V4
  else if ipv6CidrMatch s.toList then some CidrType.V6
  else none

/-- Modelled from the spec: the repository's `constants` module is not
under `src/`.  §4.3 describes the exclusion set as "a configured set of
exclusion markers (comment marker, a `payload:` section header, or known
unsupported rule keywords)". -/
def FILTER_KEY : List String := ["#", "payload:", "USER-AGENT", "URL-REGEX"]

/-- Modelled from the spec: the repository's `constants` module is not
under `src/`.  §4.3 describes the inclusion set as "a fixed set of
inclusion keywords (full rule-type prefixes)". -/
def INCLUDE_KEY : List String :=
  ["DOMAIN,", "DOMAIN-SUFFIX,", "DOMAIN-KEYWORD,", "IP-CIDR,", "IP-CIDR6,",
   "GEOIP,", "GEOSITE,", "MATCH,", "PROCESS-NAME,"]

/-- Stripping loop of `str::trim_start_matches`, driven by a fuel counter:
every strip of a non-empty pattern removes at least one character, so fuel
equal to the subject's length always suffices. -/
def trimStartAux (pat : List Char) : Nat → List Char → List Char
  | 0, s => s
  | fuel + 1, s =>
    if pat ≠ [] ∧ pat.isPrefixOf s then trimStartAux pat fuel (s.drop pat.length)
    else s

/-- Models `str::trim_start_matches`: repeatedly strips a leading
occurrence of the (non-empty) pattern. -/
def trimStartList (s pat : List Char) : List Char :=
  trimStartAux pat s.length s

/-- Embedding of `extraction_rules` (src/build/mathrule.rs). -/
def extraction_rules (line : String) : String :=
  let match_content : Option String :=
    match yamlRulesExtract line with
    | some v => some v
    | none =>
      if FILTER_KEY.all (fun kw => ¬ strContains line kw) then some line else none
  let rule := match_content.getD ""
  if rule ≠ "" then
    if INCLUDE_KEY.any (fun kw => strContains rule kw) then rule
    else if strStarts rule "+." then
      "DOMAIN-SUFFIX," ++ String.mk (trimStartList rule.toList ['+', '.'])
    else if domainMatch rule.toList then "DOMAIN," ++ rule
    else
      match get_cidr_type rule with
      | some ct => ct.as_str ++ "," ++ rule ++ ",no-resolve"
      | none => ""
  else ""

/-! ### RuleAggregator (src/build/rules.rs) -/

/-- The `NO_RESOLVE` constant of src/build/rules.rs. -/
def NO_RESOLVE : String := ",no-resolve"

/-- Embedding of `format_rules` (src/build/rules.rs): normalize the line,
filter, and tag with the source name — inserted before `,no-resolve` for
rules starting with `"IP-CIDR"`, otherwise appended after stripping a
trailing `,no-resolve`. -/
def format_rules (item : String) (name_str : String) : String :=
  let rule := extraction_rules item
  if FILTER_KEY.all (fun p => ¬ strContains rule p) then
    if strStarts rule "IP-CIDR" then
      let new_rule :=
        match strFind rule NO_RESOLVE with
        | some pos => strTake rule pos ++ "," ++ name_str ++ strDrop rule pos
        | none => rule ++ "," ++ name_str
      if new_rule ≠ "" then new_rule else ""
    else
      let stripped_rule := (stripSuffix rule NO_RESOLVE).getD rule
      if stripped_rule ≠ "" then stripped_rule ++ "," ++ name_str else ""
  else ""

/-- Embedding of `process_final_rules` (src/build/rules.rs); each ruleset
is the pair `(rule_name, final_rule)`. -/
def process_final_rules (rulesets : List (String × String)) : List String :=
  rulesets.flatMap fun rs =>
    let name_str := rs.1
    let rule_str := rs.2
    if strContains rule_str "[]" then
      let rule := replaceFirst rule_str "[]" ""
      if strContains rule NO_RESOLVE then
        match strFind rule NO_RESOLVE with
        | some pos => [strTake rule pos ++ "," ++ name_str ++ strDrop rule pos]
        | none => []
      else if [("FINAL" : String), "GEOSITE,", NO_RESOLVE].all
          (fun s => ¬ strContains rule s) then
        [rule ++ "," ++ name_str]
      else if strContains rule "FINAL" then
        ["MATCH," ++ name_str]
      else []
    else []

/-- Models Rust `str::lines`: split at `'\n'`, drop one trailing empty
piece, strip a final `'\r'` from each line. -/
def rustLines (s : String) : List String :=
  let raw := splitOnChar '\n' s.toList
  let raw := if raw.getLast? = some [] then raw.dropLast else raw
  raw.map fun l => String.mk (if l.getLast? = some '\r' then l.dropLast else l)

/-- Per-source line processing shared by the download and local paths of
src/build/rules.rs: each line is normalized and tagged by `format_rules`,
empty results are dropped. -/
def tagSourceLines (name text : String) : List String :=
  ((rustLines text).map fun line => format_rules line name).filter fun r => r ≠ ""

/-- Embedding of `build_rules` (src/build/rules.rs) after its effects are
resolved: `downloaded` pairs each remote source name with the decoded text
its download produced (empty on failure), `locals` pairs each local source
name with its file text, `finals` are the `(rule_name, final_rule)` pairs.
The YAML rendering of the list is cosmetic; the function returns the
combined rule list and the count `sorted_and_unique.len()` computed by the
source after the final rules have been appended. -/
def build_rules_core (downloaded locals finals : List (String × String)) :
    List String × Nat :=
  let down_rules := downloaded.flatMap fun p => tagSourceLines p.1 p.2
  let local_rules := locals.flatMap fun p => tagSourceLines p.1 p.2
  let final_rules := process_final_rules finals
  let sorted_and_unique := sort_rules (down_rules ++ local_rules)
  let all := sorted_and_unique ++ final_rules
  (all, all.length)

/-! ### NodeDeduplicator/Paginator (src/utils/paginate.rs)

`serde_json::Value` is embedded as the inductive `J`; `serde_json::Map`
cannot hold duplicate keys, captured below by the well-formedness predicate
`wfJ`. -/

/-- The generic structured value, models `serde_json::Value`. -/
inductive J where
  | null
  | bool (b : Bool)
  | num (n : Int)
  | str (s : String)
  | arr (xs : List J)
  | obj (es : List (String × J))

/-- Embedding of `remove_fields_from_json` (src/utils/paginate.rs): drops
the listed fields from a top-level object; other values pass unchanged. -/
def remove_fields_from_json (value : J) (fields : List String) : J :=
  match value with
  | .obj es => .obj (es.filter fun e => ¬ fields.contains e.1)
  | v => v

/-- Key order used by `entries.sort_by_key(|&(k, _)| k.clone())`. -/
def entryLe (a b : String × J) : Prop := cmpChars a.1.toList b.1.toList ≠ Ordering.gt

instance : DecidableRel entryLe := fun a b => by
  unfold entryLe; infer_instance

/-- Strict version of `entryLe`, used to exploit key distinctness. -/
def entryLt (a b : String × J) : Prop := cmpChars a.1.toList b.1.toList = Ordering.lt

mutual
/-- Embedding of `sort_json_value` (src/utils/paginate.rs): recursively
sorts object entries by key; arrays keep their order.  The source sorts
the entry list and then maps the recursive call over the values; since the
sort compares only keys and the value map preserves keys, mapping first
and sorting after computes the same object, and lets the recursion follow
the entry list. -/
def sortJ : J → J
  | .obj es => .obj (List.insertionSort entryLe (sortEntries es))
  | .arr xs => .arr (sortArr xs)
  | .null => .null
  | .bool b => .bool b
  | .num n => .num n
  | .str s => .str s
/-- Recursive value canonicalization of an entry list. -/
def sortEntries : List (String × J) → List (String × J)
  | [] => []
  | (k, v) :: es => (k, sortJ v) :: sortEntries es
/-- Recursive canonicalization of an array. -/
def sortArr : List J → List J
  | [] => []
  | x :: xs => sortJ x :: sortArr xs
end

/-- JSON string quoting for the deterministic serialization. -/
def quoteJString (s : String) : String :=
  "\"" ++ String.mk (s.toList.flatMap fun c =>
    if c = '"' ∨ c = '\\' then ['\\', c] else [c]) ++ "\""

mutual
/-- Deterministic serialization, models `serde_json::to_vec` on the
canonicalized value (compact separators, object fields in list order). -/
def serializeJ : J → String
  | .null => "null"
  | .bool b => if b then "true" else "false"
  | .num n => toString n
  | .str s => quoteJString s
  | .arr xs => "[" ++ serializeArr xs ++ "]"
  | .obj es => "\x7b" ++ serializeEntries es ++ "\x7d"
/-- Serialization of array elements, comma separated. -/
def serializeArr : List J → String
  | [] => ""
  | [x] => serializeJ x
  | x :: xs => serializeJ x ++ "," ++ serializeArr xs
/-- Serialization of object entries, comma separated. -/
def serializeEntries : List (String × J) → String
  | [] => ""
  | [(k, v)] => quoteJString k ++ ":" ++ serializeJ v
  | (k, v) :: es => quoteJString k ++ ":" ++ serializeJ v ++ "," ++ serializeEntries es
end

mutual
/-- Well-formedness: objects never hold duplicate keys, as guaranteed by
`serde_json::Map` for every value `serde_json::to_value` produces. -/
def wfJ : J → Bool
  | .obj es => nodupKeysB es && wfEntries es
  | .arr xs => wfArr xs
  | .null => true
  | .bool _ => true
  | .num _ => true
  | .str _ => true
/-- Entry-list well-formedness (values recursively well-formed). -/
def wfEntries : List (String × J) → Bool
  | [] => true
  | (_, v) :: es => wfJ v && wfEntries es
/-- Array well-formedness. -/
def wfArr : List J → Bool
  | [] => true
  | x :: xs => wfJ x && wfArr xs
/-- Key distinctness of an entry list. -/
def nodupKeysB : List (String × J) → Bool
  | [] => true
  | (k, _) :: es => es.all (fun e => decide (e.1 ≠ k)) && nodupKeysB es
end

mutual
/-- Two values differ only in object field order: objects may permute
their entries (recursively), everything else is equal. -/
inductive Reorder : J → J → Prop where
  | null : Reorder .null .null
  | bool (b : Bool) : Reorder (.bool b) (.bool b)
  | num (n : Int) : Reorder (.num n) (.num n)
  | str (s : String) : Reorder (.str s) (.str s)
  | arr {xs ys : List J} : ReorderArr xs ys → Reorder (.arr xs) (.arr ys)
  | obj {es fs gs : List (String × J)} :
      ReorderEntries es fs → fs.Perm gs → Reorder (.obj es) (.obj gs)
/-- Pointwise `Reorder` on arrays (arrays keep their order). -/
inductive ReorderArr : List J → List J → Prop where
  | nil : ReorderArr [] []
  | cons {x y : J} {xs ys : List J} :
      Reorder x y → ReorderArr xs ys → ReorderArr (x :: xs) (y :: ys)
/-- Pointwise `Reorder` on entry lists: same keys, reordered values. -/
inductive ReorderEntries : List (String × J) → List (String × J) → Prop where
  | nil : ReorderEntries [] []
  | cons {k : String} {v w : J} {es fs : List (String × J)} :
      Reorder v w → ReorderEntries es fs → ReorderEntries ((k, v) :: es) ((k, w) :: fs)
end

/-- Embedding of `compute_hash` (src/utils/paginate.rs): convert to the
generic value (`toJson` models `serde_json::to_value`), remove the ignored
fields, sort object keys recursively, serialize deterministically, digest
with blake3.  The digest is modelled by the canonical serialization
itself — a deterministic stand-in; the theorems use only that the digest
is a function of the serialized bytes. -/
def compute_hash {T : Type} (toJson : T → J) (item : T)
    (fields_to_remove : List String) : String :=
  serializeJ (sortJ (remove_fields_from_json (toJson item) fields_to_remove))

/-- The dedup loop of `dedup_and_paginate` with its seen-set explicit
(models the `HashSet` insertion loop; first occurrence wins). -/
def dedupAux {T : Type} (hash : T → String) (seen : List String) : List T → List T
  | [] => []
  | x :: xs =>
    if hash x ∈ seen then dedupAux hash seen xs
    else x :: dedupAux hash (hash x :: seen) xs

/-- The dedup phase of `dedup_and_paginate`. -/
def dedupBy {T : Type} (hash : T → String) (items : List T) : List T :=
  dedupAux hash [] items

/-- The base-62 alphabet of `base62_encode`. -/
def BASE62_CHARSET : List Char :=
  "0123456789abcdefghijklmnopqrstuvwxyzABCDEFGHIJKLMNOPQRSTUVWXYZ".toList

/-- Digit loop of `base62_encode` (least significant first). -/
def base62Digits : Nat → List Char
  | 0 => []
  | n + 1 => BASE62_CHARSET.getD ((n + 1) % 62) '0' :: base62Digits ((n + 1) / 62)
decreasing_by
  exact Nat.div_lt_self (Nat.succ_pos n) (by norm_num)

/-- Embedding of `base62_encode` (src/utils/paginate.rs); note it encodes
`0` as the empty string, as the source loop does. -/
def base62_encode (n : Nat) : String :=
  String.mk (base62Digits n).reverse

/-- Deterministic stand-in for Rust `DefaultHasher` (SipHash-1-3 with
fixed zero keys) applied to a name string: like it, a fixed pure function
of the name's bytes into 64 bits.  The renaming claims depend only on the
hash being a deterministic function of the name. -/
def nameHash64 (s : String) : Nat :=
  s.toList.foldl (fun h c => (h * 31 + c.toNat) % 18446744073709551616) 5381

/-- The rename suffix: the name's 64-bit hash, base-62 encoded, truncated
to at most 6 characters (`&base62[..6.min(base62.len())]`). -/
def nameSuffix (name : String) : String :=
  strTake (base62_encode (nameHash64 name)) 6

/-- The `Page` struct of src/utils/paginate.rs. -/
structure Page (T : Type) where
  names : List String
  items : List T

/-- Chunking loop driven by a fuel counter: each window consumes at least
one item, so fuel equal to the list's length always suffices. -/
def chunksOfAux {T : Type} (n : Nat) : Nat → List T → List (List T)
  | 0, _ => []
  | _ + 1, [] => []
  | fuel + 1, x :: xs =>
    if n = 0 then []
    else (x :: xs).take n :: chunksOfAux n fuel ((x :: xs).drop n)

/-- Models `slice::chunks`: windows of `n` items, last may be shorter
(`chunks` with size zero panics in Rust; here it yields no pages and every
theorem that needs it assumes `0 < n`). -/
def chunksOf {T : Type} (n : Nat) (l : List T) : List (List T) :=
  chunksOfAux n l.length l

/-- Count lookup in the `name_counts` map (models
`HashMap::entry(name).or_insert(0)` reads). -/
def countOf (counts : List (String × Nat)) (name : String) : Nat :=
  match counts.find? (fun p => p.1 == name) with
  | some p => p.2
  | none => 0

/-- Count increment in the `name_counts` map (`*count += 1`, inserting 0
first when absent). -/
def bumpCount (counts : List (String × Nat)) (name : String) : List (String × Nat) :=
  match counts with
  | [] => [(name, 1)]
  | (k, c) :: rest =>
    if k = name then (k, c + 1) :: rest else (k, c) :: bumpCount rest name

/-- The body of the per-item loop of `dedup_and_paginate`: extract the
name; a repeated name is rewritten to `name-<suffix>` via the caller's
setter; the emitted name (if any) joins the page's `names`. -/
def renameStep {T : Type} (extract : T → Option String) (set : T → String → T)
    (counts : List (String × Nat)) (item : T) :
    List (String × Nat) × T × Option String :=
  match extract item with
  | some name =>
    if countOf counts name > 0 then
      let new_name := name ++ "-" ++ nameSuffix name
      (bumpCount counts name, set item new_name, some new_name)
    else
      (bumpCount counts name, item, some name)
  | none => (counts, item, none)

/-- One page's item loop, threading the global `name_counts`. -/
def processChunk {T : Type} (extract : T → Option String) (set : T → String → T)
    (counts : List (String × Nat)) :
    List T → List (String × Nat) × List T × List String
  | [] => (counts, [], [])
  | x :: xs =>
    let s1 := renameStep extract set counts x
    let s2 := processChunk extract set s1.1 xs
    (s2.1, s1.2.1 :: s2.2.1,
      match s1.2.2 with
      | some n => n :: s2.2.2
      | none => s2.2.2)

/-- The page loop of `dedup_and_paginate`, threading `name_counts` across
pages. -/
def buildPages {T : Type} (extract : T → Option String) (set : T → String → T)
    (counts : List (String × Nat)) : List (List T) → List (Page T)
  | [] => []
  | ch :: chs =>
    let s := processChunk extract set counts ch
    ⟨s.2.2, s.2.1⟩ :: buildPages extract set s.1 chs

/-- Embedding of `dedup_and_paginate` (src/utils/paginate.rs). -/
def dedup_and_paginate {T : Type} (toJson : T → J) (items : List T)
    (page_size : Nat) (fields_to_remove : List String)
    (extract_name : T → Option String) (set_name : T → String → T) :
    List (Page T) :=
  let unique_items := dedupBy (fun it => compute_hash toJson it fields_to_remove) items
  buildPages extract_name set_name [] (chunksOf page_size unique_items)

/-- Reference renaming sequence: the emitted page names, computed with a
seen-set of names only — the rewritten name of every occurrence after the
first of a name is the fixed function `name ++ "-" ++ nameSuffix name` of
the name alone.  The theorem for the renaming claim equates the pipeline's
emitted names with this sequence. -/
def canonRename {T : Type} (extract : T → Option String) :
    List String → List T → List String
  | _, [] => []
  | seen, x :: xs =>
    match extract x with
    | some n =>
      (if n ∈ seen then n ++ "-" ++ nameSuffix n else n) :: canonRename extract (n :: seen) xs
    | none => canonRename extract seen xs

/-- The seen-name set after processing a list of items, for relating the
source's `name_counts` map to `canonRename`'s seen list. -/
def seenAfter {T : Type} (extract : T → Option String) :
    List String → List T → List String
  | seen, [] => seen
  | seen, x :: xs =>
    match extract x with
    | some n => seenAfter extract (n :: seen) xs
    | none => seenAfter extract seen xs

/-! ## Supporting lemmas -/

/-! ### Substring search -/

theorem subFind_cons (a : Char) (t needle : List Char) :
    subFind (a :: t) needle =
      if needle.isPrefixOf (a :: t) then some 0 else (subFind t needle).map (· + 1) := by
  rfl

theorem subFind_isSome_of_isPrefixOf {hay needle : List Char}
    (h : needle.isPrefixOf hay = true) : (subFind hay needle).isSome = true := by
  cases hay with
  | nil =>
    have : needle = [] := List.prefix_nil.mp (List.isPrefixOf_iff_prefix.mp h)
    simp [subFind, this]
  | cons a t => simp [subFind_cons, h]

theorem subFind_isSome_append (pre needle : List Char) (hne : needle ≠ []) :
    (subFind (pre ++ needle) needle).isSome = true := by
  induction pre with
  | nil =>
    simp only [List.nil_append]
    exact subFind_isSome_of_isPrefixOf
      (List.isPrefixOf_iff_prefix.mpr (List.prefix_refl needle))
  | cons a t ih =>
    have : ∃ c cs, needle = c :: cs := by
      cases needle with
      | nil => exact absurd rfl hne
      | cons c cs => exact ⟨c, cs, rfl⟩
    rw [List.cons_append, subFind_cons]
    split
    · simp
    · simpa using ih

theorem subFind_isSome_of_isSuffixOf {hay needle : List Char} (hne : needle ≠ [])
    (h : needle.isSuffixOf hay = true) : (subFind hay needle).isSome = true := by
  have hsuf : needle <:+ hay := by
    rwa [List.isSuffixOf_iff_suffix] at h
  obtain ⟨pre, hpre⟩ := hsuf
  subst hpre
  exact subFind_isSome_append pre needle hne

theorem strContains_of_stripSuffix {s suf : String} {r : String}
    (hne : suf ≠ "") (h : stripSuffix s suf = some r) : strContains s suf = true := by
  unfold stripSuffix at h
  split at h
  · rename_i hs
    refine subFind_isSome_of_isSuffixOf ?_ hs
    intro hnil
    apply hne
    cases suf with
    | mk l =>
      have hl : l = [] := by simpa [String.toList] using hnil
      subst hl
      rfl
  · exact absurd h (by simp)

theorem strContains_of_strStarts {s t : String}
    (h : strStarts s t = true) : strContains s t = true := by
  unfold strStarts at h
  exact subFind_isSome_of_isPrefixOf h

/-! ### The character-list comparator -/

theorem cmpChars_eq_iff : ∀ a b : List Char, cmpChars a b = Ordering.eq ↔ a = b := by
  intro a
  induction a with
  | nil => intro b; cases b <;> simp [cmpChars]
  | cons x xs ih =>
    intro b
    cases b with
    | nil => simp [cmpChars]
    | cons y ys =>
      by_cases hxy : x < y
      · constructor
        · intro h
          have : cmpChars (x :: xs) (y :: ys) = Ordering.lt := by simp [cmpChars, hxy]
          rw [this] at h
          exact absurd h (by decide)
        · intro h
          injection h with h1 h2
          exact absurd h1 (ne_of_lt hxy)
      · by_cases hyx : y < x
        · constructor
          · intro h
            have : cmpChars (x :: xs) (y :: ys) = Ordering.gt := by simp [cmpChars, hxy, hyx]
            rw [this] at h
            exact absurd h (by decide)
          · intro h
            injection h with h1 h2
            exact absurd h1.symm (ne_of_lt hyx)
        · have hxy' : x = y := le_antisymm (not_lt.mp hyx) (not_lt.mp hxy)
          simp [cmpChars, hxy, hyx, hxy', ih ys]

theorem cmpChars_swap : ∀ a b : List Char, (cmpChars a b).swap = cmpChars b a := by
  intro a
  induction a with
  | nil => intro b; cases b <;> simp [cmpChars, Ordering.swap]
  | cons x xs ih =>
    intro b
    cases b with
    | nil => simp [cmpChars, Ordering.swap]
    | cons y ys =>
      by_cases hxy : x < y
      · have hyx : ¬ y < x := asymm hxy
        simp [cmpChars, hxy, hyx, Ordering.swap]
      · by_cases hyx : y < x
        · simp [cmpChars, hxy, hyx, Ordering.swap]
        · simp [cmpChars, hxy, hyx, ih ys]

theorem cmpChars_lt_trans :
    ∀ a b c : List Char, cmpChars a b = Ordering.lt → cmpChars b c = Ordering.lt →
      cmpChars a c = Ordering.lt := by
  intro a
  induction a with
  | nil =>
    intro b c hab hbc
    cases b with
    | nil => simpa [cmpChars] using hbc
    | cons y ys =>
      cases c with
      | nil => simp [cmpChars] at hbc
      | cons z zs => simp [cmpChars]
  | cons x xs ih =>
    intro b c hab hbc
    cases b with
    | nil => simp [cmpChars] at hab
    | cons y ys =>
      cases c with
      | nil => simp [cmpChars] at hbc
      | cons z zs =>
        simp only [cmpChars] at hab hbc ⊢
        by_cases hxy : x < y
        · -- x < y; y ≤ z in either branch of hbc
          by_cases hyz : y < z
          · have hxz : x < z := lt_trans hxy hyz
            simp [hxz]
          · by_cases hzy : z < y
            · simp [hyz, hzy] at hbc
            · have hyz' : y = z := le_antisymm (not_lt.mp hzy) (not_lt.mp hyz)
              have hxz : x < z := hyz' ▸ hxy
              simp [hxz]
        · by_cases hyx : y < x
          · simp [hxy, hyx] at hab
          · have hxy' : x = y := le_antisymm (not_lt.mp hyx) (not_lt.mp hxy)
            subst hxy'
            by_cases hxz : x < z
            · simp [hxz]
            · by_cases hzx : z < x
              · simp [hxz, hzx] at hbc
              · simp [hxy, hyx] at hab
                simp [hxz, hzx] at hbc
                simp [hxz, hzx, ih ys zs hab hbc]

theorem cmpChars_le_trans {a b c : List Char}
    (hab : cmpChars a b ≠ Ordering.gt) (hbc : cmpChars b c ≠ Ordering.gt) :
    cmpChars a c ≠ Ordering.gt := by
  rcases hab' : cmpChars a b with _ | _ | _
  · -- a < b
    rcases hbc' : cmpChars b c with _ | _ | _
    · have := cmpChars_lt_trans a b c hab' hbc'
      simp [this]
    · have hb : b = c := (cmpChars_eq_iff b c).mp hbc'
      subst hb
      simp [hab']
    · exact absurd hbc' hbc
  · have ha : a = b := (cmpChars_eq_iff a b).mp hab'
    subst ha
    exact hbc
  · exact absurd hab' hab

theorem cmpChars_total (a b : List Char) :
    cmpChars a b ≠ Ordering.gt ∨ cmpChars b a ≠ Ordering.gt := by
  rcases h : cmpChars a b with _ | _ | _
  · left; simp [h]
  · left; simp [h]
  · right
    have := cmpChars_swap a b
    rw [h] at this
    simp [Ordering.swap] at this
    simp [← this]

/-! ### The rule comparator as a total preorder -/

theorem toList_inj {a b : String} (h : a.toList = b.toList) : a = b := by
  cases a with
  | mk la =>
    cases b with
    | mk lb =>
      have : la = lb := by simpa [String.toList] using h
      rw [this]

theorem cmpStr_eq_iff (a b : String) : cmpStr a b = Ordering.eq ↔ a = b := by
  unfold cmpStr
  rw [cmpChars_eq_iff]
  constructor
  · exact toList_inj
  · intro h; rw [h]

theorem cmpStr_gt_iff (a b : String) :
    cmpStr a b = Ordering.gt ↔ cmpStr b a = Ordering.lt := by
  unfold cmpStr
  constructor
  · intro h
    have := cmpChars_swap a.toList b.toList
    rw [h] at this
    simpa [Ordering.swap] using this.symm
  · intro h
    have := cmpChars_swap b.toList a.toList
    rw [h] at this
    simpa [Ordering.swap] using this.symm

theorem cmpStr_le_trans {a b c : String}
    (hab : cmpStr a b ≠ Ordering.gt) (hbc : cmpStr b c ≠ Ordering.gt) :
    cmpStr a c ≠ Ordering.gt :=
  cmpChars_le_trans hab hbc

theorem cmpOptNat_gt_iff (x y : Option Nat) :
    cmpOptNat x y = Ordering.gt ↔ cmpOptNat y x = Ordering.lt := by
  cases x with
  | none => cases y <;> simp [cmpOptNat]
  | some m =>
    cases y with
    | none => simp [cmpOptNat]
    | some n =>
      simp only [cmpOptNat]
      by_cases h1 : m < n
      · have h2 : ¬ n < m := asymm h1
        simp [h1, h2]
      · by_cases h2 : n < m
        · simp [h1, h2]
        · simp [h1, h2]

theorem cmpOptNat_le_trans {x y z : Option Nat}
    (hxy : cmpOptNat x y ≠ Ordering.gt) (hyz : cmpOptNat y z ≠ Ordering.gt) :
    cmpOptNat x z ≠ Ordering.gt := by
  cases x with
  | none => cases z <;> simp [cmpOptNat]
  | some m =>
    cases y with
    | none => simp [cmpOptNat] at hxy
    | some n =>
      cases z with
      | none => simp [cmpOptNat] at hyz
      | some p =>
        simp only [cmpOptNat] at hxy hyz ⊢
        by_cases h1 : m < n
        · by_cases h2 : n < p
          · simp [lt_trans h1 h2]
          · by_cases h3 : p < n
            · simp [h2, h3] at hyz
            · have : n = p := le_antisymm (not_lt.mp h3) (not_lt.mp h2)
              subst this
              simp [h1]
        · by_cases h4 : n < m
          · simp [h1, h4] at hxy
          · have : m = n := le_antisymm (not_lt.mp h4) (not_lt.mp h1)
            subst this
            exact hyz

theorem ruleCmp_gt_iff (a b : RuleTuple) :
    ruleCmp a b = Ordering.gt ↔ ruleCmp b a = Ordering.lt := by
  unfold ruleCmp
  rcases h : cmpStr a.ty b.ty with _ | _ | _
  · have hba : cmpStr b.ty a.ty = Ordering.gt := (cmpStr_gt_iff b.ty a.ty).mpr h
    simp [hba]
  · have hty : a.ty = b.ty := (cmpStr_eq_iff a.ty b.ty).mp h
    have hba : cmpStr b.ty a.ty = Ordering.eq := by
      rw [hty] at h ⊢; exact h
    rw [hba]
    by_cases hip : a.ty = "IP-CIDR"
    · have hip' : b.ty = "IP-CIDR" := hty ▸ hip
      simp only [hip, hip', if_pos]
      exact cmpOptNat_gt_iff a.ip b.ip
    · have hip' : ¬ b.ty = "IP-CIDR" := fun hc => hip (hty ▸ hc)
      simp only [hip, hip', if_neg, if_false]
      exact cmpStr_gt_iff a.key b.key
  · have hba : cmpStr b.ty a.ty = Ordering.lt := (cmpStr_gt_iff a.ty b.ty).mp h
    simp [h, hba]

instance : IsTotal RuleTuple ruleLe := by
  constructor
  intro a b
  unfold ruleLe
  by_cases h : ruleCmp a b = Ordering.gt
  · right
    have hba : ruleCmp b a = Ordering.lt := (ruleCmp_gt_iff a b).mp h
    simp [hba]
  · left; exact h

instance : IsTrans RuleTuple ruleLe := by
  constructor
  intro a b c hab hbc
  unfold ruleLe ruleCmp at hab hbc ⊢
  rcases h1 : cmpStr a.ty b.ty with _ | _ | _ <;> rw [h1] at hab
  · -- a.ty < b.ty
    rcases h2 : cmpStr b.ty c.ty with _ | _ | _ <;> rw [h2] at hbc
    · have : cmpStr a.ty c.ty ≠ Ordering.gt :=
        cmpStr_le_trans (show cmpStr a.ty b.ty ≠ Ordering.gt by simp [h1])
          (show cmpStr b.ty c.ty ≠ Ordering.gt by simp [h2])
      rcases h3 : cmpStr a.ty c.ty with _ | _ | _
      · simp
      · -- impossible: a.ty = c.ty together with a < b and b < c
        exfalso
        have hac : a.ty = c.ty := (cmpStr_eq_iff a.ty c.ty).mp h3
        have h1' : cmpStr c.ty b.ty = Ordering.lt := hac ▸ h1
        have hgt : cmpStr b.ty c.ty = Ordering.gt := (cmpStr_gt_iff b.ty c.ty).mpr h1'
        rw [hgt] at h2
        exact absurd h2 (by decide)
      · exact absurd h3 this
    · have hbc' : b.ty = c.ty := (cmpStr_eq_iff b.ty c.ty).mp h2
      have h3 : cmpStr a.ty c.ty = Ordering.lt := hbc' ▸ h1
      simp [h3]
    · exact absurd rfl hbc
  · -- a.ty = b.ty
    have hty : a.ty = b.ty := (cmpStr_eq_iff a.ty b.ty).mp h1
    rcases h2 : cmpStr b.ty c.ty with _ | _ | _ <;> rw [h2] at hbc
    · have h3 : cmpStr a.ty c.ty = Ordering.lt := hty ▸ h2
      simp [h3]
    · have hty2 : b.ty = c.ty := (cmpStr_eq_iff b.ty c.ty).mp h2
      have h3 : cmpStr a.ty c.ty = Ordering.eq := by
        rw [hty, hty2]
        exact (cmpStr_eq_iff c.ty c.ty).mpr rfl
      rw [h3]
      by_cases hip : a.ty = "IP-CIDR"
      · have hipb : b.ty = "IP-CIDR" := hty ▸ hip
        rw [if_pos hip] at hab ⊢
        rw [if_pos hipb] at hbc
        exact cmpOptNat_le_trans hab hbc
      · have hipb : ¬ b.ty = "IP-CIDR" := fun hc => hip (hty ▸ hc)
        rw [if_neg hip] at hab ⊢
        rw [if_neg hipb] at hbc
        exact cmpStr_le_trans hab hbc
    · exact absurd rfl hbc
  · exact absurd rfl hab

/-! ### Sorting facts -/

theorem dedupAdj_sublist : ∀ l : List String, List.Sublist (dedupAdj l) l := by
  intro l
  induction l with
  | nil => simp [dedupAdj]
  | cons x xs ih =>
    cases xs with
    | nil => simp [dedupAdj]
    | cons y rest =>
      simp only [dedupAdj]
      split
      · exact List.Sublist.cons x ih
      · exact List.Sublist.cons₂ x ih

theorem toTuple_line (l : String) : (toTuple l).line = l := rfl

theorem toTuple_ty (l : String) : (toTuple l).ty = typeOf l := rfl

theorem toTuple_key (l : String) : (toTuple l).key = keyOf l := rfl

/-- Every adjacent-free, comparator-sorted output of `sort_rules` is
pairwise ordered by `ruleLe` on the recomputed tuples. -/
theorem sort_rules_pairwise (lines : List String) :
    List.Pairwise (fun a b => ruleLe (toTuple a) (toTuple b)) (sort_rules lines) := by
  have hs : List.Sorted ruleLe (List.insertionSort ruleLe (lines.map toTuple)) :=
    List.sorted_insertionSort ruleLe (lines.map toTuple)
  have hmem : ∀ t ∈ List.insertionSort ruleLe (lines.map toTuple), toTuple t.line = t := by
    intro t ht
    have : t ∈ lines.map toTuple :=
      (List.perm_insertionSort ruleLe (lines.map toTuple)).mem_iff.mp ht
    obtain ⟨l, _, rfl⟩ := List.mem_map.mp this
    rfl
  have hp : List.Pairwise (fun a b => ruleLe (toTuple a) (toTuple b))
      ((List.insertionSort ruleLe (lines.map toTuple)).map RuleTuple.line) := by
    rw [List.pairwise_map]
    refine hs.imp_of_mem ?_
    intro t u htm hum h
    rw [hmem t htm, hmem u hum]
    exact h
  exact hp.sublist (dedupAdj_sublist _)

/-! ## Claim theorems -/

/-- C10: `save_net_file` is an idempotent no-op on repetition — when the
new bytes are non-empty and their content hash equals the hash of the
existing file, it reports the unchanged status and performs no write; and
when the new bytes are empty it returns the explicit empty-input status
without deleting or overwriting existing content. -/
theorem save_net_file_spec :
    (∀ (content existing : List Nat) (path : String),
      content ≠ [] →
      blake3_hash existing = blake3_hash content →
      save_net_file content path (some existing) =
        ⟨path ++ " 文件与网络文件一致，无需保存！", some existing⟩) ∧
    (∀ (path : String) (fs : Option (List Nat)),
      save_net_file [] path fs = ⟨"要写入的数据为空！", fs⟩) := by
  constructor
  · intro content existing path hne hh
    simp [save_net_file, hne, hh]
  · intro path fs
    simp [save_net_file]

/-- Witness for C10 at concrete bytes. -/
theorem save_net_file_spec_witness :
    ([1, 2] : List Nat) ≠ [] ∧
    blake3_hash [1, 2] = blake3_hash [1, 2] ∧
    save_net_file [1, 2] "f" (some [1, 2]) =
      ⟨"f 文件与网络文件一致，无需保存！", some [1, 2]⟩ ∧
    save_net_file [] "f" (some [9]) = ⟨"要写入的数据为空！", some [9]⟩ :=
  ⟨by decide, rfl,
    save_net_file_spec.1 [1, 2] [1, 2] "f" (by decide) rfl,
    save_net_file_spec.2 "f" (some [9])⟩

/-- C4 (amended): a `"FINAL,[]"` entry with tag `"T"` is rewritten to
`"MATCH,T"`; a generic `"SOME-RULE,[]"` entry yields `"SOME-RULE,,T"` —
the `"[]"` is deleted in place, the comma that preceded it stays, and
`,T` is appended. -/
theorem process_final_rules_rewrite :
    process_final_rules [("T", "FINAL,[]")] = ["MATCH,T"] ∧
    process_final_rules [("T", "SOME-RULE,[]")] = ["SOME-RULE,,T"] :=
  ⟨rfl, rfl⟩

/-- C4 counterexample: on the generic entry the code produces
`"SOME-RULE,,T"`, not the claimed `"SOME-RULE,T"`. -/
theorem process_final_rules_generic_counterexample :
    process_final_rules [("T", "SOME-RULE,[]")] = ["SOME-RULE,,T"] ∧
    (["SOME-RULE,,T"] : List String) ≠ ["SOME-RULE,T"] :=
  ⟨rfl, by decide⟩

/-- C1 (amended): `build_rules` returns the sorted+deduped non-final rules
followed by the final rules, and its count is the length of that combined
list — the final rules are included in the count, since the source takes
`sorted_and_unique.len()` after extending with them. -/
theorem build_rules_count (downloaded locals finals : List (String × String)) :
    (build_rules_core downloaded locals finals).1 =
      sort_rules ((downloaded.flatMap fun p => tagSourceLines p.1 p.2) ++
        (locals.flatMap fun p => tagSourceLines p.1 p.2)) ++
        process_final_rules finals ∧
    (build_rules_core downloaded locals finals).2 =
      (sort_rules ((downloaded.flatMap fun p => tagSourceLines p.1 p.2) ++
        (locals.flatMap fun p => tagSourceLines p.1 p.2))).length +
        (process_final_rules finals).length := by
  constructor
  · rfl
  · simp [build_rules_core]

/-- C1 counterexample: with no remote or local rules and one final rule,
the returned count is `1` although there are `0` sorted non-final rules. -/
theorem build_rules_count_counterexample :
    build_rules_core [] [] [("T", "FINAL,[]")] = (["MATCH,T"], 1) ∧
    (sort_rules []).length = 0 ∧ (1 : Nat) ≠ 0 :=
  ⟨rfl, rfl, by decide⟩

/-- C2 (amended): in the output of `sort_rules`, two lines whose type
field is `"IP-CIDR6"` are relatively ordered by plain lexicographic
comparison of the target string — the numeric address comparison is
applied only to the `"IP-CIDR"` type. -/
theorem sort_rules_ipcidr6_lexicographic (lines : List String)
    (i j : Nat) (hij : i < j) (hj : j < (sort_rules lines).length)
    (h6i : typeOf ((sort_rules lines).get ⟨i, lt_trans hij hj⟩) = "IP-CIDR6")
    (h6j : typeOf ((sort_rules lines).get ⟨j, hj⟩) = "IP-CIDR6") :
    cmpStr (keyOf ((sort_rules lines).get ⟨i, lt_trans hij hj⟩))
      (keyOf ((sort_rules lines).get ⟨j, hj⟩)) ≠ Ordering.gt := by
  have hp := sort_rules_pairwise lines
  rw [List.pairwise_iff_get] at hp
  have h := hp ⟨i, lt_trans hij hj⟩ ⟨j, hj⟩ (by simpa using hij)
  unfold ruleLe ruleCmp at h
  have hte : cmpStr (toTuple ((sort_rules lines).get ⟨i, lt_trans hij hj⟩)).ty
      (toTuple ((sort_rules lines).get ⟨j, hj⟩)).ty = Ordering.eq := by
    rw [toTuple_ty, toTuple_ty, h6i, h6j]
    exact (cmpStr_eq_iff _ _).mpr rfl
  rw [hte] at h
  have hip : ¬ (toTuple ((sort_rules lines).get ⟨i, lt_trans hij hj⟩)).ty = "IP-CIDR" := by
    rw [toTuple_ty, h6i]
    decide
  rw [if_neg hip] at h
  rw [toTuple_key, toTuple_key] at h
  exact h

/-- Witness for the amended C2 on a concrete pair of IPv6 rules. -/
theorem sort_rules_ipcidr6_lexicographic_witness :
    (0 : Nat) < 1 ∧ 1 < (sort_rules ["IP-CIDR6,::2/128,T", "IP-CIDR6,::1/128,T"]).length ∧
    typeOf ((sort_rules ["IP-CIDR6,::2/128,T", "IP-CIDR6,::1/128,T"]).get
      ⟨0, by decide⟩) = "IP-CIDR6" ∧
    typeOf ((sort_rules ["IP-CIDR6,::2/128,T", "IP-CIDR6,::1/128,T"]).get
      ⟨1, by decide⟩) = "IP-CIDR6" ∧
    cmpStr (keyOf ((sort_rules ["IP-CIDR6,::2/128,T", "IP-CIDR6,::1/128,T"]).get
        ⟨0, by decide⟩))
      (keyOf ((sort_rules ["IP-CIDR6,::2/128,T", "IP-CIDR6,::1/128,T"]).get
        ⟨1, by decide⟩)) ≠ Ordering.gt :=
  ⟨by decide, by decide, by decide, by decide,
    sort_rules_ipcidr6_lexicographic ["IP-CIDR6,::2/128,T", "IP-CIDR6,::1/128,T"]
      0 1 (by decide) (by decide) (by decide) (by decide)⟩

/-- C2 counterexample: with targets `2001:db8::/32` and `::2/128` the code
orders the `2001:db8::` line first (lexicographic on the target string),
although its 128-bit address value is the larger one — numeric comparison
would order `::2` first. -/
theorem sort_rules_ipcidr6_counterexample :
    sort_rules ["IP-CIDR6,2001:db8::/32,T", "IP-CIDR6,::2/128,T"] =
      ["IP-CIDR6,2001:db8::/32,T", "IP-CIDR6,::2/128,T"] ∧
    ip_to_u128 "2001:db8::" = some 42540766411282592856903984951653826560 ∧
    ip_to_u128 "::2" = some 2 ∧
    (2 : Nat) < 42540766411282592856903984951653826560 := by
  refine ⟨by decide, by decide, by decide, by norm_num⟩

/-- Concatenating contiguous takes of a list along a cut-point function. -/
theorem flatMap_take_drop_eq_take (bytes : List Nat) (p : Nat → Nat) :
    ∀ t : Nat, p 0 = 0 → (∀ i, i < t → p i ≤ p (i + 1)) →
      ((List.range t).flatMap fun i => (bytes.drop (p i)).take (p (i + 1) - p i)) =
        bytes.take (p t) := by
  intro t
  induction t with
  | zero => intro h0 _; simp [h0]
  | succ t ih =>
    intro h0 hmono
    have hmt : ∀ i, i < t → p i ≤ p (i + 1) := fun i hi => hmono i (Nat.lt_succ_of_lt hi)
    have hstep : p t ≤ p (t + 1) := hmono t (Nat.lt_succ_self t)
    rw [List.range_succ, List.flatMap_append, ih h0 hmt]
    simp only [List.flatMap_cons, List.flatMap_nil, List.append_nil]
    rw [← List.take_add]
    congr 1
    omega

/-- The `i`-th issued range of `chunk_ranges`. -/
theorem chunk_ranges_getD (total thread i : Nat) (h : i < thread) :
    (chunk_ranges total thread).getD i (0, 0) =
      (i * (total / thread),
        if i = thread - 1 then total - 1 else (i + 1) * (total / thread) - 1) := by
  have hl : i < ((List.range thread).map (fun i =>
      (i * (total / thread),
        if i = thread - 1 then total - 1 else (i + 1) * (total / thread) - 1))).length := by
    simpa using h
  unfold chunk_ranges
  rw [List.getD_eq_getElem _ _ hl]
  simp

/-- C6: for `1 ≤ thread_count ≤ total_size` the byte ranges of
`download_multi_threaded` have length `thread_count`, start at `0`, end at
`total_size - 1`, are contiguous and pairwise disjoint, and concatenating
the corresponding slices of the resource in range order reproduces the
resource exactly. -/
theorem chunk_ranges_spec (total thread : Nat) (bytes : List Nat)
    (h1 : 1 ≤ thread) (h2 : thread ≤ total) (hlen : bytes.length = total) :
    (chunk_ranges total thread).length = thread ∧
    ((chunk_ranges total thread).getD 0 (0, 0)).1 = 0 ∧
    ((chunk_ranges total thread).getD (thread - 1) (0, 0)).2 = total - 1 ∧
    (∀ i, i + 1 < thread →
      ((chunk_ranges total thread).getD i (0, 0)).2 + 1 =
        ((chunk_ranges total thread).getD (i + 1) (0, 0)).1) ∧
    (∀ i j, i < j → j < thread →
      ((chunk_ranges total thread).getD i (0, 0)).2 <
        ((chunk_ranges total thread).getD j (0, 0)).1) ∧
    (chunk_ranges total thread).flatMap (sliceRange bytes) = bytes := by
  have hthread : 0 < thread := h1
  have hcs : 1 ≤ total / thread := (Nat.one_le_div_iff hthread).mpr h2
  have htotal : 1 ≤ total := le_trans h1 h2
  have hmul : thread * (total / thread) ≤ total := by
    calc thread * (total / thread) = total / thread * thread := Nat.mul_comm _ _
    _ ≤ total := Nat.div_mul_le_self total thread
  refine ⟨by simp [chunk_ranges], ?_, ?_, ?_, ?_, ?_⟩
  · rw [chunk_ranges_getD total thread 0 hthread]
    simp
  · rw [chunk_ranges_getD total thread (thread - 1) (by omega)]
    simp
  · intro i hi
    rw [chunk_ranges_getD total thread i (by omega),
      chunk_ranges_getD total thread (i + 1) hi]
    have hine : i ≠ thread - 1 := by omega
    have hpos : 1 ≤ (i + 1) * (total / thread) := by
      calc 1 ≤ total / thread := hcs
      _ = 1 * (total / thread) := (Nat.one_mul _).symm
      _ ≤ (i + 1) * (total / thread) := Nat.mul_le_mul_right _ (by omega)
    simp only [hine, if_false]
    omega
  · intro i j hij hj
    rw [chunk_ranges_getD total thread i (lt_trans hij hj),
      chunk_ranges_getD total thread j hj]
    have hine : i ≠ thread - 1 := by omega
    have hle : (i + 1) * (total / thread) ≤ j * (total / thread) :=
      Nat.mul_le_mul_right _ (by omega)
    have hpos : 1 ≤ (i + 1) * (total / thread) := by
      calc 1 ≤ total / thread := hcs
      _ = 1 * (total / thread) := (Nat.one_mul _).symm
      _ ≤ (i + 1) * (total / thread) := Nat.mul_le_mul_right _ (by omega)
    simp only [hine, if_false]
    omega
  · -- reconstruction: rewrite each slice to the cut-point form and tile
    have hfm : (chunk_ranges total thread).flatMap (sliceRange bytes) =
        (List.range thread).flatMap fun i =>
          (bytes.drop (if i = thread then total else i * (total / thread))).take
            ((if i + 1 = thread then total else (i + 1) * (total / thread)) -
              (if i = thread then total else i * (total / thread))) := by
      unfold chunk_ranges
      rw [List.flatMap_map]
      refine List.flatMap_congr ?_
      intro i hi
      have hit : i < thread := List.mem_range.mp hi
      show (bytes.drop (i * (total / thread))).take
          ((if i = thread - 1 then total - 1 else (i + 1) * (total / thread) - 1) + 1 -
            i * (total / thread)) =
        (bytes.drop (if i = thread then total else i * (total / thread))).take
          ((if i + 1 = thread then total else (i + 1) * (total / thread)) -
            (if i = thread then total else i * (total / thread)))
      rw [if_neg (show ¬ i = thread by omega)]
      by_cases hlast : i = thread - 1
      · rw [if_pos hlast, if_pos (show i + 1 = thread by omega)]
        congr 1
        omega
      · rw [if_neg hlast, if_neg (show ¬ i + 1 = thread by omega)]
        congr 1
        have hpos : 1 ≤ (i + 1) * (total / thread) := by
          calc 1 ≤ total / thread := hcs
          _ = 1 * (total / thread) := (Nat.one_mul _).symm
          _ ≤ (i + 1) * (total / thread) := Nat.mul_le_mul_right _ (by omega)
        omega
    have hp0 : (if (0 : Nat) = thread then total else 0 * (total / thread)) = 0 := by
      rw [if_neg (show ¬ (0 : Nat) = thread by omega), Nat.zero_mul]
    have hmono : ∀ i, i < thread →
        (if i = thread then total else i * (total / thread)) ≤
          (if i + 1 = thread then total else (i + 1) * (total / thread)) := by
      intro i hi
      rw [if_neg (show ¬ i = thread by omega)]
      by_cases hi1 : i + 1 = thread
      · rw [if_pos hi1]
        calc i * (total / thread) ≤ thread * (total / thread) :=
          Nat.mul_le_mul_right _ (by omega)
        _ ≤ total := hmul
      · rw [if_neg hi1]
        exact Nat.mul_le_mul_right _ (by omega)
    have hmain := flatMap_take_drop_eq_take bytes
      (fun k => if k = thread then total else k * (total / thread)) thread hp0 hmono
    simp only [] at hmain
    rw [hfm, hmain, if_pos trivial, ← hlen]
    exact List.take_length bytes

/-- Witness for C6 at `total_size = 10`, `thread_count = 3`. -/
theorem chunk_ranges_spec_witness :
    (1 : Nat) ≤ 3 ∧ (3 : Nat) ≤ 10 ∧
    ([0, 1, 2, 3, 4, 5, 6, 7, 8, 9] : List Nat).length = 10 ∧
    (chunk_ranges 10 3).flatMap (sliceRange [0, 1, 2, 3, 4, 5, 6, 7, 8, 9]) =
      [0, 1, 2, 3, 4, 5, 6, 7, 8, 9] :=
  ⟨by decide, by decide, by decide,
    (chunk_ranges_spec 10 3 [0, 1, 2, 3, 4, 5, 6, 7, 8, 9]
      (by decide) (by decide) (by decide)).2.2.2.2.2⟩

/-! ### Lemmas for the normalizer and tagging claims -/

theorem strFind_eq_none_of_not_contains {s t : String}
    (h : strContains s t = false) : strFind s t = none := by
  unfold strContains at h
  unfold strFind
  cases hf : subFind s.toList t.toList with
  | none => rfl
  | some v => rw [hf] at h; simp at h

theorem stripSuffix_eq_none_of_not_contains {s : String}
    (h : strContains s NO_RESOLVE = false) : stripSuffix s NO_RESOLVE = none := by
  cases hs : stripSuffix s NO_RESOLVE with
  | none => rfl
  | some r =>
    have := strContains_of_stripSuffix (by decide : (NO_RESOLVE : String) ≠ "") hs
    rw [this] at h
    exact absurd h (by decide)

theorem append_with_comma_ne_empty (a b : String) : a ++ "," ++ b ≠ "" := by
  intro h
  have h' : a.toList ++ [','] ++ b.toList = [] := congrArg String.toList h
  simp at h'

theorem append_with_comma_ne_empty4 (a b c : String) : a ++ "," ++ b ++ c ≠ "" := by
  intro h
  have h' : a.toList ++ [','] ++ b.toList ++ c.toList = [] := congrArg String.toList h
  simp at h'

theorem yamlRulesExtract_eq_none_of_hash {s : String}
    (h : strStarts s "#" = true) : yamlRulesExtract s = none := by
  unfold strStarts at h
  have hpre : ("#" : String).toList <+: s.toList := List.isPrefixOf_iff_prefix.mp h
  obtain ⟨t, ht⟩ := hpre
  have ht' : s.toList = '#' :: t := ht.symm
  unfold yamlRulesExtract
  rw [ht']
  have hdw : List.dropWhile isSpaceChar ('#' :: t) = '#' :: t := by
    rw [List.dropWhile_cons]
    simp [isSpaceChar]
  rw [hdw]
  rfl

theorem extraction_rules_eq_empty_of_hash {s : String}
    (h : strStarts s "#" = true) : extraction_rules s = "" := by
  have hy := yamlRulesExtract_eq_none_of_hash h
  have hc : strContains s "#" = true := strContains_of_strStarts h
  unfold extraction_rules
  rw [hy]
  have hall : (FILTER_KEY.all fun kw => decide (¬ strContains s kw = true)) = false := by
    simp [FILTER_KEY, hc]
  simp only [hall]
  rfl

/-- C3: the rule normalizer maps the literal inputs as specified, and
discards every comment line starting with `"#"`. -/
theorem extraction_rules_classification :
    extraction_rules "192.168.1.0/24" = "IP-CIDR,192.168.1.0/24,no-resolve" ∧
    extraction_rules "2001:db8::/32" = "IP-CIDR6,2001:db8::/32,no-resolve" ∧
    extraction_rules "999.1.1.1/33" = "" ∧
    extraction_rules "+.example.com" = "DOMAIN-SUFFIX,example.com" ∧
    extraction_rules "baidu.com" = "DOMAIN,baidu.com" ∧
    (∀ s : String, strStarts s "#" = true → extraction_rules s = "") :=
  ⟨rfl, rfl, rfl, rfl, rfl, fun _ h => extraction_rules_eq_empty_of_hash h⟩

/-- Witness for C3's universal comment clause at a concrete comment line. -/
theorem extraction_rules_classification_witness :
    strStarts "# comment" "#" = true ∧ extraction_rules "# comment" = "" :=
  ⟨by decide, extraction_rules_classification.2.2.2.2.2 "# comment" (by decide)⟩

/-- C5 (amended): after normalization and the keyword filter, a non-empty
rule without the `,no-resolve` flag gets the source name appended at the
end; a rule starting with `"IP-CIDR"` that carries the flag gets the name
inserted immediately before the flag's first occurrence; but a rule NOT
starting with `"IP-CIDR"` has a trailing `,no-resolve` stripped and the
name appended — the flag is not preserved for such rules. -/
theorem format_rules_tagging (line name : String)
    (hfk : (FILTER_KEY.all fun p => decide (¬ strContains (extraction_rules line) p = true)) = true)
    (hne : extraction_rules line ≠ "") :
    (strContains (extraction_rules line) NO_RESOLVE = false →
      format_rules line name = extraction_rules line ++ "," ++ name) ∧
    (∀ pos : Nat, strStarts (extraction_rules line) "IP-CIDR" = true →
      strFind (extraction_rules line) NO_RESOLVE = some pos →
      format_rules line name =
        strTake (extraction_rules line) pos ++ "," ++ name ++
          strDrop (extraction_rules line) pos) ∧
    (∀ r : String, strStarts (extraction_rules line) "IP-CIDR" = false →
      stripSuffix (extraction_rules line) NO_RESOLVE = some r → r ≠ "" →
      format_rules line name = r ++ "," ++ name) := by
  refine ⟨?_, ?_, ?_⟩
  · intro hnr
    unfold format_rules
    simp only [hfk, if_pos]
    by_cases hip : strStarts (extraction_rules line) "IP-CIDR" = true
    · rw [hip]
      simp only [if_pos]
      rw [strFind_eq_none_of_not_contains hnr]
      rw [if_pos (append_with_comma_ne_empty (extraction_rules line) name)]
    · rw [Bool.not_eq_true] at hip
      rw [hip]
      simp only [Bool.false_eq_true, if_false]
      rw [stripSuffix_eq_none_of_not_contains hnr]
      simp only [Option.getD_none]
      rw [if_pos hne]
  · intro pos hip hfind
    unfold format_rules
    simp only [hfk, if_pos, hip]
    rw [hfind]
    rw [if_pos (append_with_comma_ne_empty4 (strTake (extraction_rules line) pos) name
      (strDrop (extraction_rules line) pos))]
  · intro r hip hstrip hrne
    unfold format_rules
    simp only [hfk, if_pos, hip]
    simp only [Bool.false_eq_true, if_false]
    rw [hstrip]
    simp only [Option.getD_some]
    rw [if_pos hrne]

/-- Witness for the amended C5: all three tagging behaviors at concrete
inputs. -/
theorem format_rules_tagging_witness :
    format_rules "baidu.com" "T" = "DOMAIN,baidu.com" ++ "," ++ "T" ∧
    format_rules "192.168.1.0/24" "T" =
      strTake "IP-CIDR,192.168.1.0/24,no-resolve" 22 ++ "," ++ "T" ++
        strDrop "IP-CIDR,192.168.1.0/24,no-resolve" 22 ∧
    format_rules "SRC-IP-CIDR,10.0.0.0/8,no-resolve" "T" =
      "SRC-IP-CIDR,10.0.0.0/8" ++ "," ++ "T" :=
  ⟨(format_rules_tagging "baidu.com" "T" (by decide) (by decide)).1 (by decide),
    (format_rules_tagging "192.168.1.0/24" "T" (by decide) (by decide)).2.1 22
      (by decide) (by decide),
    (format_rules_tagging "SRC-IP-CIDR,10.0.0.0/8,no-resolve" "T" (by decide)
      (by decide)).2.2 "SRC-IP-CIDR,10.0.0.0/8" (by decide) (by decide) (by decide)⟩

/-- C5 counterexample: the normalized rule
`"SRC-IP-CIDR,10.0.0.0/8,no-resolve"` (passed through verbatim because it
contains the inclusion keyword `"IP-CIDR,"`) carries the flag, yet tagging
drops the flag instead of inserting the name before it. -/
theorem format_rules_no_resolve_counterexample :
    extraction_rules "SRC-IP-CIDR,10.0.0.0/8,no-resolve" =
      "SRC-IP-CIDR,10.0.0.0/8,no-resolve" ∧
    strContains "SRC-IP-CIDR,10.0.0.0/8,no-resolve" ",no-resolve" = true ∧
    format_rules "SRC-IP-CIDR,10.0.0.0/8,no-resolve" "T" = "SRC-IP-CIDR,10.0.0.0/8,T" ∧
    strContains "SRC-IP-CIDR,10.0.0.0/8,T" ",no-resolve" = false :=
  ⟨rfl, by decide, rfl, by decide⟩

/-! ### Lemmas for the node-dedup claims -/

theorem nodupKeysB_iff : ∀ es : List (String × J),
    nodupKeysB es = true ↔ (es.map Prod.fst).Nodup := by
  intro es
  induction es with
  | nil => simp [nodupKeysB]
  | cons e es ih =>
    obtain ⟨k, v⟩ := e
    simp only [nodupKeysB, Bool.and_eq_true, List.all_eq_true, List.map_cons,
      List.nodup_cons, ih]
    constructor
    · rintro ⟨h1, h2⟩
      refine ⟨?_, h2⟩
      intro hk
      obtain ⟨⟨k', v'⟩, hmem, hk'⟩ := List.mem_map.mp hk
      have := h1 _ hmem
      simp at this
      exact this (hk' ▸ rfl)
    · rintro ⟨h1, h2⟩
      refine ⟨?_, h2⟩
      intro e' hmem
      simp only [decide_eq_true_eq]
      intro he
      exact h1 (List.mem_map.mpr ⟨e', hmem, he⟩)

instance : IsTotal (String × J) entryLe := by
  constructor
  intro a b
  unfold entryLe
  rcases h : cmpChars a.1.toList b.1.toList with _ | _ | _
  · left; simp
  · left; simp
  · right
    have := cmpChars_swap a.1.toList b.1.toList
    rw [h] at this
    simp only [Ordering.swap] at this
    rw [← this]
    simp

instance : IsTrans (String × J) entryLe := by
  constructor
  intro a b c hab hbc
  exact cmpChars_le_trans hab hbc

instance : IsAntisymm (String × J) entryLt := by
  constructor
  intro a b hab hba
  exfalso
  have := cmpChars_swap a.1.toList b.1.toList
  rw [hab] at this
  simp only [Ordering.swap] at this
  rw [hba] at this
  exact absurd this (by decide)

theorem sorted_entryLt_of_le {l : List (String × J)}
    (hs : List.Sorted entryLe l) (hnd : (l.map Prod.fst).Nodup) :
    List.Sorted entryLt l := by
  have hne : List.Pairwise (fun a b : String × J => a.1 ≠ b.1) l :=
    List.pairwise_map.mp hnd
  have hand := hs.and hne
  refine hand.imp ?_
  rintro a b ⟨hle, hne'⟩
  unfold entryLe at hle
  unfold entryLt
  rcases h : cmpChars a.1.toList b.1.toList with _ | _ | _
  · rfl
  · exfalso
    exact hne' (toList_inj ((cmpChars_eq_iff a.1.toList b.1.toList).mp h))
  · exact absurd h hle

theorem insertionSort_entryLe_eq_of_perm {l1 l2 : List (String × J)}
    (hperm : l1.Perm l2) (hnd : (l1.map Prod.fst).Nodup) :
    List.insertionSort entryLe l1 = List.insertionSort entryLe l2 := by
  have hs1 : List.Sorted entryLe (List.insertionSort entryLe l1) :=
    List.sorted_insertionSort entryLe l1
  have hs2 : List.Sorted entryLe (List.insertionSort entryLe l2) :=
    List.sorted_insertionSort entryLe l2
  have hp : (List.insertionSort entryLe l1).Perm (List.insertionSort entryLe l2) :=
    (List.perm_insertionSort entryLe l1).trans
      (hperm.trans (List.perm_insertionSort entryLe l2).symm)
  have hnd1 : ((List.insertionSort entryLe l1).map Prod.fst).Nodup :=
    (((List.perm_insertionSort entryLe l1).map Prod.fst).nodup_iff).mpr hnd
  have hnd2 : ((List.insertionSort entryLe l2).map Prod.fst).Nodup :=
    ((hp.map Prod.fst).nodup_iff).mp hnd1
  exact List.eq_of_perm_of_sorted hp
    (sorted_entryLt_of_le hs1 hnd1) (sorted_entryLt_of_le hs2 hnd2)

theorem sortEntries_eq_map : ∀ es : List (String × J),
    sortEntries es = es.map fun e => (e.1, sortJ e.2) := by
  intro es
  induction es with
  | nil => simp [sortEntries]
  | cons e es ih =>
    obtain ⟨k, v⟩ := e
    simp [sortEntries, ih]

/-- The mutual induction for canonical-form invariance under `Reorder`:
reorder-related well-formed values canonicalize identically. -/
theorem reorder_sortJ_eq : ∀ {a b : J}, Reorder a b → wfJ a = true → sortJ a = sortJ b := by
  have main := @Reorder.rec
    (fun a b _ => wfJ a = true → sortJ a = sortJ b)
    (fun xs ys _ => wfArr xs = true → sortArr xs = sortArr ys)
    (fun es fs _ => wfEntries es = true →
      sortEntries es = sortEntries fs ∧ es.map Prod.fst = fs.map Prod.fst)
    (fun _ => rfl)
    (fun _ _ => rfl)
    (fun _ _ => rfl)
    (fun _ _ => rfl)
    (by -- arr
      intro xs ys hra ih hw
      have hw' : wfArr xs = true := by simpa [wfJ] using hw
      simp [sortJ, ih hw'])
    (by -- obj
      intro es fs gs hre hperm ih hw
      have hw' : nodupKeysB es = true ∧ wfEntries es = true := by
        simpa [wfJ, Bool.and_eq_true] using hw
      obtain ⟨hse, hkeys⟩ := ih hw'.2
      have hnd : (es.map Prod.fst).Nodup := (nodupKeysB_iff es).mp hw'.1
      have hndf : ((sortEntries fs).map Prod.fst).Nodup := by
        have h1 : (sortEntries fs).map Prod.fst = fs.map Prod.fst := by
          rw [sortEntries_eq_map]
          simp [List.map_map]
        rw [h1, ← hkeys]
        exact hnd
      have hpm : (sortEntries fs).Perm (sortEntries gs) := by
        rw [sortEntries_eq_map, sortEntries_eq_map]
        exact hperm.map _
      simp only [sortJ]
      rw [hse, insertionSort_entryLe_eq_of_perm hpm hndf])
    (fun _ => rfl)
    (by -- ReorderArr.cons
      intro x y xs ys hr hrl ih1 ih2 hw
      have hw' : wfJ x = true ∧ wfArr xs = true := by
        simpa [wfArr, Bool.and_eq_true] using hw
      simp [sortArr, ih1 hw'.1, ih2 hw'.2])
    (fun _ => ⟨rfl, rfl⟩)
    (by -- ReorderEntries.cons
      intro k v w es fs hr hre ih1 ih2 hw
      have hw' : wfJ v = true ∧ wfEntries es = true := by
        simpa [wfEntries, Bool.and_eq_true] using hw
      obtain ⟨h1, h2⟩ := ih2 hw'.2
      constructor
      · simp [sortEntries, ih1 hw'.1, h1]
      · simp [h2])
  intro a b h hw
  exact main h hw

theorem dedupAux_sublist {T : Type} (hash : T → String) :
    ∀ (l : List T) (seen : List String), List.Sublist (dedupAux hash seen l) l := by
  intro l
  induction l with
  | nil => intro seen; simp [dedupAux]
  | cons x xs ih =>
    intro seen
    simp only [dedupAux]
    split
    · exact List.Sublist.cons x (ih seen)
    · exact List.Sublist.cons₂ x (ih (hash x :: seen))

theorem mem_dedupAux_not_seen {T : Type} (hash : T → String) :
    ∀ (l : List T) (seen : List String) (x : T),
      x ∈ dedupAux hash seen l → hash x ∉ seen := by
  intro l
  induction l with
  | nil => intro seen x hx; simp [dedupAux] at hx
  | cons a as ih =>
    intro seen x hx
    simp only [dedupAux] at hx
    split at hx
    · exact ih seen x hx
    · rcases List.mem_cons.mp hx with h | h
      · subst h
        assumption
      · have := ih (hash a :: seen) x h
        intro hmem
        exact this (List.mem_cons_of_mem _ hmem)

theorem dedupAux_pairwise {T : Type} (hash : T → String) :
    ∀ (l : List T) (seen : List String),
      List.Pairwise (fun a b => hash a ≠ hash b) (dedupAux hash seen l) := by
  intro l
  induction l with
  | nil => intro seen; simp [dedupAux]
  | cons a as ih =>
    intro seen
    simp only [dedupAux]
    split
    · exact ih seen
    · refine List.Pairwise.cons ?_ (ih (hash a :: seen))
      intro y hy
      have := mem_dedupAux_not_seen hash as (hash a :: seen) y hy
      intro he
      exact this (he ▸ List.mem_cons_self _ _)

theorem mem_dedupAux_of_first_occ {T : Type} (hash : T → String) :
    ∀ (pre : List T) (x : T) (post : List T) (seen : List String),
      hash x ∉ seen → (∀ z ∈ pre, hash z ≠ hash x) →
      x ∈ dedupAux hash seen (pre ++ x :: post) := by
  intro pre
  induction pre with
  | nil =>
    intro x post seen hx _
    simp only [List.nil_append, dedupAux]
    rw [if_neg hx]
    exact List.mem_cons_self _ _
  | cons z pre ih =>
    intro x post seen hx hpre
    simp only [List.cons_append, dedupAux]
    split
    · exact ih x post seen hx fun w hw => hpre w (List.mem_cons_of_mem _ hw)
    · refine List.mem_cons_of_mem _ ?_
      refine ih x post (hash z :: seen) ?_ fun w hw => hpre w (List.mem_cons_of_mem _ hw)
      intro hmem
      rcases List.mem_cons.mp hmem with h | h
      · exact hpre z (List.mem_cons_self _ _) h.symm
      · exact hx h

theorem dedupAux_class_represented {T : Type} (hash : T → String) :
    ∀ (l : List T) (seen : List String) (x : T), x ∈ l →
      hash x ∈ seen ∨ ∃ y ∈ dedupAux hash seen l, hash y = hash x := by
  intro l
  induction l with
  | nil => intro seen x hx; simp at hx
  | cons a as ih =>
    intro seen x hx
    rcases List.mem_cons.mp hx with h | h
    · subst h
      simp only [dedupAux]
      by_cases ha : hash x ∈ seen
      · left; exact ha
      · right
        rw [if_neg ha]
        exact ⟨x, List.mem_cons_self _ _, rfl⟩
    · simp only [dedupAux]
      by_cases ha : hash a ∈ seen
      · rw [if_pos ha]
        exact ih seen x h
      · rw [if_neg ha]
        rcases ih (hash a :: seen) x h with hmem | ⟨y, hy, hyx⟩
        · rcases List.mem_cons.mp hmem with h1 | h1
          · right; exact ⟨a, List.mem_cons_self _ _, h1.symm⟩
          · left; exact h1
        · right; exact ⟨y, List.mem_cons_of_mem _ hy, hyx⟩

/-- C7: canonicalization makes field order and ignored fields irrelevant to
the content hash, and the dedup loop keeps exactly the first record of each
hash class, in first-seen order, with no two survivors sharing a hash. -/
theorem dedup_canonical_spec {T : Type} (toJson : T → J) (fields : List String)
    (items : List T) :
    (∀ r1 r2 : T,
      Reorder (remove_fields_from_json (toJson r1) fields)
        (remove_fields_from_json (toJson r2) fields) →
      wfJ (remove_fields_from_json (toJson r1) fields) = true →
      compute_hash toJson r1 fields = compute_hash toJson r2 fields) ∧
    List.Pairwise (fun a b => compute_hash toJson a fields ≠ compute_hash toJson b fields)
      (dedupBy (fun it => compute_hash toJson it fields) items) ∧
    List.Sublist (dedupBy (fun it => compute_hash toJson it fields) items) items ∧
    (∀ pre x post, items = pre ++ x :: post →
      (∀ z ∈ pre, compute_hash toJson z fields ≠ compute_hash toJson x fields) →
      x ∈ dedupBy (fun it => compute_hash toJson it fields) items) ∧
    (∀ x ∈ items, ∃ y ∈ dedupBy (fun it => compute_hash toJson it fields) items,
      compute_hash toJson y fields = compute_hash toJson x fields) := by
  refine ⟨?_, ?_, ?_, ?_, ?_⟩
  · intro r1 r2 hre hwf
    unfold compute_hash
    rw [reorder_sortJ_eq hre hwf]
  · exact dedupAux_pairwise _ items []
  · exact dedupAux_sublist _ items []
  · intro pre x post hdec hpre
    rw [hdec]
    exact mem_dedupAux_of_first_occ _ pre x post [] (by simp) hpre
  · intro x hx
    rcases dedupAux_class_represented _ items [] x hx with h | h
    · simp at h
    · exact h

/-- Witness for C7: two records that differ only in the ignored `name`
field and in field order hash identically, and the first of them is the one
retained by the dedup loop. -/
theorem dedup_canonical_spec_witness :
    compute_hash (fun x : J => x)
      (J.obj [("a", J.num 1), ("b", J.str "x"), ("name", J.str "n1")]) ["name"] =
      compute_hash (fun x : J => x)
        (J.obj [("b", J.str "x"), ("a", J.num 1), ("name", J.str "n2")]) ["name"] ∧
    J.obj [("a", J.num 1), ("b", J.str "x"), ("name", J.str "n1")] ∈
      dedupBy (fun it => compute_hash (fun x : J => x) it ["name"])
        [J.obj [("a", J.num 1), ("b", J.str "x"), ("name", J.str "n1")],
         J.obj [("b", J.str "x"), ("a", J.num 1), ("name", J.str "n2")]] :=
  ⟨(dedup_canonical_spec (fun x : J => x) ["name"]
      [J.obj [("a", J.num 1), ("b", J.str "x"), ("name", J.str "n1")],
       J.obj [("b", J.str "x"), ("a", J.num 1), ("name", J.str "n2")]]).1
    (J.obj [("a", J.num 1), ("b", J.str "x"), ("name", J.str "n1")])
    (J.obj [("b", J.str "x"), ("a", J.num 1), ("name", J.str "n2")])
    (Reorder.obj
      (ReorderEntries.cons (Reorder.num 1)
        (ReorderEntries.cons (Reorder.str "x") ReorderEntries.nil))
      (List.Perm.swap ("b", J.str "x") ("a", J.num 1) []))
    rfl,
   (dedup_canonical_spec (fun x : J => x) ["name"]
      [J.obj [("a", J.num 1), ("b", J.str "x"), ("name", J.str "n1")],
       J.obj [("b", J.str "x"), ("a", J.num 1), ("name", J.str "n2")]]).2.2.2.1
    [] (J.obj [("a", J.num 1), ("b", J.str "x"), ("name", J.str "n1")])
    [J.obj [("b", J.str "x"), ("a", J.num 1), ("name", J.str "n2")]]
    rfl (fun z hz => absurd hz (List.not_mem_nil z))⟩

theorem processChunk_items_length {T : Type} (extract : T → Option String)
    (set : T → String → T) :
    ∀ (ch : List T) (counts : List (String × Nat)),
      (processChunk extract set counts ch).2.1.length = ch.length := by
  intro ch
  induction ch with
  | nil => intro counts; simp [processChunk]
  | cons x xs ih =>
    intro counts
    simp [processChunk, ih]

theorem processChunk_names_length {T : Type} (extract : T → Option String)
    (set : T → String → T) :
    ∀ (ch : List T) (counts : List (String × Nat)),
      (processChunk extract set counts ch).2.2.length =
        ch.countP (fun x => (extract x).isSome) := by
  intro ch
  induction ch with
  | nil => intro counts; simp [processChunk]
  | cons x xs ih =>
    intro counts
    simp only [processChunk, List.countP_cons]
    unfold renameStep
    cases hx : extract x with
    | none => simp [hx, ih]
    | some n =>
      by_cases hc : countOf counts n > 0
      · simp [hx, hc, ih]
      · simp [hx, hc, ih]

theorem buildPages_mem {T : Type} (extract : T → Option String) (set : T → String → T) :
    ∀ (chs : List (List T)) (counts : List (String × Nat)) (p : Page T),
      p ∈ buildPages extract set counts chs →
      ∃ ch ∈ chs, p.items.length = ch.length ∧
        p.names.length = ch.countP (fun x => (extract x).isSome) := by
  intro chs
  induction chs with
  | nil => intro counts p hp; simp [buildPages] at hp
  | cons ch chs ih =>
    intro counts p hp
    simp only [buildPages] at hp
    rcases List.mem_cons.mp hp with h | h
    · subst h
      exact ⟨ch, List.mem_cons_self _ _,
        processChunk_items_length extract set ch counts,
        processChunk_names_length extract set ch counts⟩
    · obtain ⟨ch', hch', hl⟩ := ih _ p h
      exact ⟨ch', List.mem_cons_of_mem _ hch', hl⟩

theorem chunksOfAux_subset {T : Type} (n : Nat) :
    ∀ (fuel : Nat) (l : List T), ∀ ch ∈ chunksOfAux n fuel l, ∀ x ∈ ch, x ∈ l := by
  intro fuel
  induction fuel with
  | zero => intro l ch hch; simp [chunksOfAux] at hch
  | succ m ih =>
    intro l ch hch x hx
    cases l with
    | nil => simp [chunksOfAux] at hch
    | cons a as =>
      rw [chunksOfAux] at hch
      split at hch
      · simp at hch
      · rcases List.mem_cons.mp hch with h | h
        · subst h
          exact List.take_subset n (a :: as) hx
        · exact List.drop_subset n (a :: as) (ih _ ch h x hx)

theorem chunksOf_subset {T : Type} (n : Nat) :
    ∀ (l : List T) (ch : List T), ch ∈ chunksOf n l → ∀ x ∈ ch, x ∈ l :=
  fun l => chunksOfAux_subset n l.length l

/-- C8 (amended): every page's `names` has exactly one entry per item whose
extracted name is present; when every deduplicated item yields a name, the
`names` and `items` of every page have equal length. -/
theorem dedup_and_paginate_names_mirror {T : Type} (toJson : T → J) (items : List T)
    (n : Nat) (fields : List String) (extract : T → Option String) (set : T → String → T)
    (hall : ∀ x ∈ dedupBy (fun it => compute_hash toJson it fields) items,
      (extract x).isSome = true) :
    ∀ p ∈ dedup_and_paginate toJson items n fields extract set,
      p.names.length = p.items.length := by
  intro p hp
  unfold dedup_and_paginate at hp
  obtain ⟨ch, hch, hil, hnl⟩ := buildPages_mem extract set _ [] p hp
  have hsub := chunksOf_subset n _ ch hch
  rw [hil, hnl]
  refine List.countP_eq_length.mpr ?_
  intro x hx
  exact hall x (hsub x hx)

/-- Witness for the amended C8 on concrete nodes with names. -/
theorem dedup_and_paginate_names_mirror_witness :
    (dedup_and_paginate (fun k : Nat => J.num k) [0, 1, 2] 2 []
        (fun _ => some "n") (fun x _ => x)).map
      (fun p => (p.names.length, p.items.length)) = [(2, 2), (1, 1)] ∧
    ∀ p ∈ dedup_and_paginate (fun k : Nat => J.num k) [0, 1, 2] 2 []
        (fun _ => some "n") (fun x _ => x),
      p.names.length = p.items.length :=
  ⟨rfl,
    dedup_and_paginate_names_mirror (fun k : Nat => J.num k) [0, 1, 2] 2 []
      (fun _ => some "n") (fun x _ => x) (fun _ _ => rfl)⟩

/-- C8 counterexample: an item whose `extract_name` is `none` contributes
an item but no `names` entry, so `names` and `items` differ in length. -/
theorem dedup_and_paginate_names_counterexample :
    (dedup_and_paginate (fun x : Option String =>
        match x with
        | some s => J.str s
        | none => J.null)
      [none] 5 [] (fun x => x) (fun _ s => some s)).map
        (fun p => (p.names.length, p.items.length)) = [(0, 1)] ∧
    (0 : Nat) ≠ 1 :=
  ⟨rfl, by decide⟩

/-! ### Lemmas for the renaming claim -/

theorem countOf_cons (k : String) (c : Nat) (rest : List (String × Nat)) (nm : String) :
    countOf ((k, c) :: rest) nm = if k = nm then c else countOf rest nm := by
  simp only [countOf, List.find?]
  by_cases h : k = nm
  · have : (k == nm) = true := by simpa [beq_iff_eq] using h
    simp [this, h]
  · have : (k == nm) = false := by simpa [beq_iff_eq] using h
    simp [this, h]

theorem countOf_bumpCount : ∀ (counts : List (String × Nat)) (n nm : String),
    countOf (bumpCount counts n) nm =
      if nm = n then countOf counts n + 1 else countOf counts nm := by
  intro counts n
  induction counts with
  | nil =>
    intro nm
    simp only [bumpCount, countOf_cons]
    by_cases h : nm = n
    · simp [h, countOf]
    · have h' : ¬ n = nm := fun he => h he.symm
      simp [h, h', countOf]
  | cons e rest ih =>
    obtain ⟨k, c⟩ := e
    intro nm
    by_cases hk : k = n
    · subst hk
      simp only [bumpCount, if_pos rfl, countOf_cons]
      by_cases h : nm = k
      · simp [h, countOf_cons]
      · have h' : ¬ k = nm := fun he => h he.symm
        simp [h, h', countOf_cons]
    · simp only [bumpCount, if_neg hk, countOf_cons]
      by_cases h : k = nm
      · have h2 : ¬ nm = n := fun he => hk (h.trans he)
        simp [h, h2]
      · simp [h, hk, ih nm]

theorem canonRename_append {T : Type} (extract : T → Option String) :
    ∀ (l1 l2 : List T) (seen : List String),
      canonRename extract seen (l1 ++ l2) =
        canonRename extract seen l1 ++
          canonRename extract (seenAfter extract seen l1) l2 := by
  intro l1
  induction l1 with
  | nil => intro l2 seen; simp [canonRename, seenAfter]
  | cons x xs ih =>
    intro l2 seen
    simp only [List.cons_append, canonRename, seenAfter]
    cases hx : extract x with
    | none => exact ih l2 seen
    | some n => simp [ih l2 (n :: seen)]

theorem processChunk_canonRename {T : Type} (extract : T → Option String)
    (set : T → String → T) :
    ∀ (ch : List T) (counts : List (String × Nat)) (seen : List String),
      (∀ nm, countOf counts nm > 0 ↔ nm ∈ seen) →
      (processChunk extract set counts ch).2.2 = canonRename extract seen ch ∧
      (∀ nm, countOf (processChunk extract set counts ch).1 nm > 0 ↔
        nm ∈ seenAfter extract seen ch) := by
  intro ch
  induction ch with
  | nil => intro counts seen hinv; exact ⟨rfl, hinv⟩
  | cons x xs ih =>
    intro counts seen hinv
    cases hx : extract x with
    | none =>
      have hstep : renameStep extract set counts x = (counts, x, none) := by
        simp only [renameStep, hx]
      simp only [processChunk, hstep, canonRename, seenAfter, hx]
      exact ih counts seen hinv
    | some n =>
      have hinv' : ∀ nm, countOf (bumpCount counts n) nm > 0 ↔ nm ∈ n :: seen := by
        intro nm
        rw [countOf_bumpCount]
        by_cases h : nm = n
        · subst h
          simp
        · rw [if_neg h, hinv nm]
          simp [h]
      obtain ⟨h1, h2⟩ := ih (bumpCount counts n) (n :: seen) hinv'
      by_cases hc : countOf counts n > 0
      · have hmem : n ∈ seen := (hinv n).mp hc
        have hstep : renameStep extract set counts x =
            (bumpCount counts n, set x (n ++ "-" ++ nameSuffix n),
              some (n ++ "-" ++ nameSuffix n)) := by
          simp only [renameStep, hx]
          rw [if_pos hc]
        constructor
        · simp only [processChunk, hstep, canonRename, hx, hmem, if_pos]
          rw [h1]
        · simp only [processChunk, hstep, seenAfter, hx]
          exact h2
      · have hmem : n ∉ seen := fun hm => hc ((hinv n).mpr hm)
        have hstep : renameStep extract set counts x =
            (bumpCount counts n, x, some n) := by
          simp only [renameStep, hx]
          rw [if_neg hc]
        constructor
        · simp only [processChunk, hstep, canonRename, hx, hmem, if_neg, if_false]
          rw [h1]
        · simp only [processChunk, hstep, seenAfter, hx]
          exact h2

theorem buildPages_flatMap_names {T : Type} (extract : T → Option String)
    (set : T → String → T) :
    ∀ (chs : List (List T)) (counts : List (String × Nat)) (seen : List String),
      (∀ nm, countOf counts nm > 0 ↔ nm ∈ seen) →
      (buildPages extract set counts chs).flatMap Page.names =
        canonRename extract seen chs.flatten := by
  intro chs
  induction chs with
  | nil => intro counts seen hinv; simp [buildPages, canonRename]
  | cons ch chs ih =>
    intro counts seen hinv
    obtain ⟨h1, h2⟩ := processChunk_canonRename extract set ch counts seen hinv
    simp only [buildPages, List.flatMap_cons, List.flatten_cons]
    rw [canonRename_append]
    rw [h1, ih _ _ h2]

theorem chunksOfAux_flatten {T : Type} (n : Nat) (hn : 0 < n) :
    ∀ (fuel : Nat) (l : List T), l.length ≤ fuel → (chunksOfAux n fuel l).flatten = l := by
  intro fuel
  induction fuel with
  | zero =>
    intro l hl
    have : l = [] := List.eq_nil_of_length_eq_zero (Nat.le_zero.mp hl)
    subst this
    simp [chunksOfAux]
  | succ m ih =>
    intro l hl
    cases l with
    | nil => simp [chunksOfAux]
    | cons a as =>
      rw [chunksOfAux, if_neg (Nat.pos_iff_ne_zero.mp hn)]
      rw [List.flatten_cons]
      have hlen : ((a :: as).drop n).length ≤ m := by
        simp only [List.length_drop, List.length_cons]
        simp only [List.length_cons] at hl
        omega
      rw [ih _ hlen]
      exact List.take_append_drop n (a :: as)

theorem chunksOf_flatten {T : Type} (n : Nat) (hn : 0 < n) (l : List T) :
    (chunksOf n l).flatten = l :=
  chunksOfAux_flatten n hn l.length l (le_refl _)

/-- C9: across all pages, the emitted (possibly rewritten) names of
`dedup_and_paginate` coincide with the reference sequence `canonRename`, in
which the rewritten name of every occurrence after the first of a name is
the fixed function `name ++ "-" ++ nameSuffix name` of the original name
alone — so all later occurrences of one name receive the identical
rewritten name, and three or more retained items sharing a name still
carry duplicate names. -/
theorem dedup_and_paginate_rename {T : Type} (toJson : T → J) (items : List T)
    (n : Nat) (fields : List String) (extract : T → Option String)
    (set : T → String → T) (hn : 0 < n) :
    (dedup_and_paginate toJson items n fields extract set).flatMap Page.names =
      canonRename extract []
        (dedupBy (fun it => compute_hash toJson it fields) items) := by
  unfold dedup_and_paginate
  rw [buildPages_flatMap_names extract set _ [] []
    (by intro nm; simp [countOf])]
  rw [chunksOf_flatten n hn]

/-- Witness for C9: three retained items all named `"n"`; the second and
third receive the identical suffixed name, so duplicates persist. -/
theorem dedup_and_paginate_rename_witness :
    (0 : Nat) < 2 ∧
    (dedup_and_paginate (fun k : Nat => J.num k) [0, 1, 2] 2 []
        (fun _ => some "n") (fun x _ => x)).flatMap Page.names =
      canonRename (fun _ : Nat => some "n") []
        (dedupBy (fun it => compute_hash (fun k : Nat => J.num k) it []) [0, 1, 2]) ∧
    (dedup_and_paginate (fun k : Nat => J.num k) [0, 1, 2] 2 []
        (fun _ => some "n") (fun x _ => x)).flatMap Page.names =
      ["n", "n" ++ "-" ++ nameSuffix "n", "n" ++ "-" ++ nameSuffix "n"] :=
  ⟨by decide,
    dedup_and_paginate_rename (fun k : Nat => J.num k) [0, 1, 2] 2 []
      (fun _ => some "n") (fun x _ => x) (by decide),
    rfl⟩
